import Mathlib

/-!
Verification of the core of the `nostrust` repository: canonical event
hashing and Schnorr sign/verify (NIP-01, `src/event.rs`, `src/key.rs`,
`src/signature.rs`), the NIP-19 bech32 TLV codec (`src/bech32/`), mnemonic
key derivation (`src/mnemonic.rs`, `src/key.rs`) and AES-256-CBC symmetric
encryption (`src/encryption.rs`).

Rust strings are modelled as Lean `String`, byte buffers as `List Nat`
with every element `< 256`.  External cryptographic primitives from the
`secp256k1` and `bip32` crates (SHA-256, Schnorr signatures, seed
derivation) are modelled as parameters bundled in records, constrained by
the guarantees the crates document; the x-only public-key validity check
of `XOnlyPublicKey::from_slice` and AES-256-CBC from the `aes`/`cbc`
crates are implemented concretely.  A Rust panic (an `unwrap` on an error,
or an arithmetic underflow in debug builds) is modelled as `none` in an
`Option` result.
-/

namespace Nostrust

/-! ## Hex encoding and decoding

Models the lowercase hex display used by `sha256::Hash::to_string`,
`XOnlyPublicKey::to_string` and `schnorr::Signature::to_string`, and the
parsers `Vec::<u8>::from_hex`, `XOnlyPublicKey::from_str`,
`schnorr::Signature::from_str`. -/

/-- Lowercase hex digit for a value below 16. -/
def hexDigit (n : Nat) : Char :=
  if n < 10 then Char.ofNat (48 + n) else Char.ofNat (87 + n)

/-- Two lowercase hex digits of one byte. -/
def hexByte (b : Nat) : List Char :=
  [hexDigit (b / 16), hexDigit (b % 16)]

/-- Lowercase hex rendering of a byte sequence, as a character list. -/
def hexEncodeL (bs : List Nat) : List Char :=
  bs.flatMap hexByte

/-- Lowercase hex rendering of a byte sequence. -/
def hexEncode (bs : List Nat) : String :=
  String.mk (hexEncodeL bs)

/-- Value of one hex digit character; hex parsers accept both cases. -/
def hexDigitVal (c : Char) : Option Nat :=
  if 48 ≤ c.toNat ∧ c.toNat ≤ 57 then some (c.toNat - 48)
  else if 97 ≤ c.toNat ∧ c.toNat ≤ 102 then some (c.toNat - 87)
  else if 65 ≤ c.toNat ∧ c.toNat ≤ 70 then some (c.toNat - 55)
  else none

/-- Hex parsing of a character list into bytes; fails on odd length or a
non-hex character. -/
def hexDecodeL : List Char → Option (List Nat)
  | [] => some []
  | [_] => none
  | c1 :: c2 :: rest => do
      let h ← hexDigitVal c1
      let l ← hexDigitVal c2
      let bs ← hexDecodeL rest
      pure ((16 * h + l) :: bs)

/-- Hex parsing of a string into bytes. -/
def hexDecode (s : String) : Option (List Nat) :=
  hexDecodeL s.data

theorem hexDigitVal_hexDigit : ∀ n < 16, hexDigitVal (hexDigit n) = some n := by
  decide

theorem hexDecodeL_hexByte (b : Nat) (hb : b < 256) (rest : List Char)
    (bs : List Nat) (h : hexDecodeL rest = some bs) :
    hexDecodeL (hexByte b ++ rest) = some (b :: bs) := by
  have h1 : hexDigitVal (hexDigit (b / 16)) = some (b / 16) :=
    hexDigitVal_hexDigit _ (by omega)
  have h2 : hexDigitVal (hexDigit (b % 16)) = some (b % 16) :=
    hexDigitVal_hexDigit _ (by omega)
  have hb' : 16 * (b / 16) + b % 16 = b := by omega
  simp [hexByte, hexDecodeL, h1, h2, h, hb']

/-- Round trip: hex parsing inverts hex rendering on genuine byte lists. -/
theorem hexDecodeL_hexEncodeL (bs : List Nat) (h : ∀ b ∈ bs, b < 256) :
    hexDecodeL (hexEncodeL bs) = some bs := by
  induction bs with
  | nil => simp [hexEncodeL, hexDecodeL]
  | cons b t ih =>
      have hb : b < 256 := h b (by simp)
      have ht : hexDecodeL (hexEncodeL t) = some t := ih fun x hx => h x (by simp [hx])
      simpa [hexEncodeL] using hexDecodeL_hexByte b hb (hexEncodeL t) t ht

theorem hexDecode_hexEncode (bs : List Nat) (h : ∀ b ∈ bs, b < 256) :
    hexDecode (hexEncode bs) = some bs := by
  simpa [hexDecode, hexEncode] using hexDecodeL_hexEncodeL bs h

/-- Hex rendering is injective on genuine byte lists. -/
theorem hexEncodeL_inj {bs1 bs2 : List Nat} (h1 : ∀ b ∈ bs1, b < 256)
    (h2 : ∀ b ∈ bs2, b < 256) (h : hexEncodeL bs1 = hexEncodeL bs2) : bs1 = bs2 := by
  have e1 := hexDecodeL_hexEncodeL bs1 h1
  have e2 := hexDecodeL_hexEncodeL bs2 h2
  rw [h, e2] at e1
  exact (Option.some.injEq _ _ ▸ e1).symm

theorem hexEncode_inj {bs1 bs2 : List Nat} (h1 : ∀ b ∈ bs1, b < 256)
    (h2 : ∀ b ∈ bs2, b < 256) (h : hexEncode bs1 = hexEncode bs2) : bs1 = bs2 := by
  apply hexEncodeL_inj h1 h2
  have := congrArg String.data h
  simpa [hexEncode] using this

/-! ## Decimal rendering of unsigned integers

Models the `serde_json` rendering of `u32` values (`created_at`, `kind`)
inside the canonical JSON array: decimal digits, no leading zeros. -/

/-- Fueled digit accumulator; the fuel `n + 1` is always sufficient. -/
def natDigitsAux : Nat → Nat → List Char → List Char
  | 0, _, acc => acc
  | fuel + 1, n, acc =>
      if n < 10 then hexDigit n :: acc
      else natDigitsAux fuel (n / 10) (hexDigit (n % 10) :: acc)

/-- Decimal digit characters of a natural number. -/
def natDigits (n : Nat) : List Char :=
  natDigitsAux (n + 1) n []

/-- Decimal digit character test. -/
def isDigitC (c : Char) : Bool :=
  48 ≤ c.toNat ∧ c.toNat ≤ 57

theorem natDigitsAux_append (fuel n : Nat) (acc : List Char) :
    natDigitsAux fuel n acc = natDigitsAux fuel n [] ++ acc := by
  induction fuel generalizing n acc with
  | zero => simp [natDigitsAux]
  | succ f ih =>
      by_cases h : n < 10
      · simp [natDigitsAux, h]
      · rw [natDigitsAux, if_neg h, natDigitsAux, if_neg h,
          ih (n / 10) (hexDigit (n % 10) :: acc), ih (n / 10) [hexDigit (n % 10)]]
        simp

theorem natDigitsAux_fuel_irrel (f1 : Nat) : ∀ f2 n, 1 ≤ f1 → 1 ≤ f2 →
    n < 10 ^ f1 → n < 10 ^ f2 → natDigitsAux f1 n [] = natDigitsAux f2 n [] := by
  induction f1 with
  | zero => omega
  | succ g1 ih =>
      intro f2 n _ hf2 hn1 hn2
      match f2, hf2 with
      | g2 + 1, _ =>
        by_cases h : n < 10
        · simp [natDigitsAux, h]
        · rw [natDigitsAux, if_neg h, natDigitsAux, if_neg h]
          have hg1 : 1 ≤ g1 := by
            by_contra hc
            have : g1 = 0 := by omega
            subst this
            simp [pow_succ] at hn1
            omega
          have hg2 : 1 ≤ g2 := by
            by_contra hc
            have : g2 = 0 := by omega
            subst this
            simp [pow_succ] at hn2
            omega
          have hd1 : n / 10 < 10 ^ g1 := by
            apply Nat.div_lt_of_lt_mul
            rw [pow_succ] at hn1
            omega
          have hd2 : n / 10 < 10 ^ g2 := by
            apply Nat.div_lt_of_lt_mul
            rw [pow_succ] at hn2
            omega
          rw [natDigitsAux_append, natDigitsAux_append g2]
          rw [ih g2 (n / 10) hg1 hg2 hd1 hd2]

theorem natDigits_eq_aux (fuel n : Nat) (hf : 1 ≤ fuel) (hn : n < 10 ^ fuel) :
    natDigitsAux fuel n [] = natDigits n := by
  apply natDigitsAux_fuel_irrel fuel (n + 1) n hf (by omega) hn
  calc n < 10 ^ n := Nat.lt_pow_self (by norm_num) n
    _ ≤ 10 ^ (n + 1) := Nat.pow_le_pow_right (by omega) (by omega)

/-- Unfolding for values below ten. -/
theorem natDigits_small {n : Nat} (h : n < 10) : natDigits n = [hexDigit n] := by
  simp [natDigits, natDigitsAux, h]

/-- Unfolding for values of ten or more. -/
theorem natDigits_step {n : Nat} (h : 10 ≤ n) :
    natDigits n = natDigits (n / 10) ++ [hexDigit (n % 10)] := by
  rw [natDigits, natDigitsAux, if_neg (by omega), natDigitsAux_append]
  congr 1
  apply natDigits_eq_aux
  · omega
  · have h1 : n < 10 ^ (n + 1) := by
      calc n < 10 ^ n := Nat.lt_pow_self (by norm_num) n
        _ ≤ 10 ^ (n + 1) := Nat.pow_le_pow_right (by omega) (by omega)
    apply Nat.div_lt_of_lt_mul
    rw [← pow_succ']
    exact h1

theorem natDigits_all_digit (n : Nat) : ∀ c ∈ natDigits n, isDigitC c = true := by
  induction n using Nat.strong_induction_on with
  | _ n ih =>
      by_cases h : n < 10
      · rw [natDigits_small h]
        intro c hc
        simp at hc
        subst hc
        have : ∀ m < 10, isDigitC (hexDigit m) = true := by decide
        exact this n h
      · rw [natDigits_step (by omega)]
        intro c hc
        simp at hc
        rcases hc with hc | hc
        · exact ih (n / 10) (by omega) c hc
        · subst hc
          have : ∀ m < 10, isDigitC (hexDigit m) = true := by decide
          exact this (n % 10) (by omega)

theorem natDigits_ne_nil (n : Nat) : natDigits n ≠ [] := by
  by_cases h : n < 10
  · simp [natDigits_small h]
  · have h10 : 10 ≤ n := by omega
    simp [natDigits_step h10]

/-- Accumulator value of a digit-character run. -/
def digitsVal (a : Nat) (cs : List Char) : Nat :=
  cs.foldl (fun x c => 10 * x + (c.toNat - 48)) a

theorem digitsVal_append (a : Nat) (l1 l2 : List Char) :
    digitsVal a (l1 ++ l2) = digitsVal (digitsVal a l1) l2 := by
  simp [digitsVal, List.foldl_append]

theorem digitsVal_natDigits (n : Nat) :
    ∀ a, digitsVal a (natDigits n) = a * 10 ^ (natDigits n).length + n := by
  induction n using Nat.strong_induction_on with
  | _ n ih =>
      intro a
      by_cases h : n < 10
      · rw [natDigits_small h]
        have : (hexDigit n).toNat = 48 + n := by
          rw [hexDigit, if_pos h]
          unfold Char.ofNat
          rw [dif_pos (Or.inl (by omega))]
          rfl
        simp [digitsVal, this]
        omega
      · rw [natDigits_step (by omega), digitsVal_append]
        rw [ih (n / 10) (by omega) a]
        have : (hexDigit (n % 10)).toNat = 48 + n % 10 := by
          rw [hexDigit, if_pos (by omega)]
          unfold Char.ofNat
          rw [dif_pos (Or.inl (by omega))]
          rfl
        simp [digitsVal, this]
        rw [Nat.mul_add, Nat.mul_comm 10 (a * 10 ^ (natDigits (n / 10)).length)]
        rw [Nat.mul_assoc a, ← pow_succ]
        omega

/-- Decimal rendering is injective. -/
theorem natDigits_inj {n m : Nat} (h : natDigits n = natDigits m) : n = m := by
  have hn := digitsVal_natDigits n 0
  have hm := digitsVal_natDigits m 0
  rw [h] at hn
  simp at hn hm
  omega

/-- The first character, if any, is not a decimal digit. -/
def headNotDigit : List Char → Prop
  | [] => True
  | c :: _ => isDigitC c = false

theorem takeWhile_digits (ds : List Char) (hds : ∀ c ∈ ds, isDigitC c = true)
    (r : List Char) (hr : headNotDigit r) :
    (ds ++ r).takeWhile isDigitC = ds ∧ (ds ++ r).dropWhile isDigitC = r := by
  induction ds with
  | nil =>
      simp only [List.nil_append]
      cases r with
      | nil => simp
      | cons c t =>
          simp only [headNotDigit] at hr
          simp [List.takeWhile, List.dropWhile, hr]
  | cons c t ih =>
      have hc : isDigitC c = true := hds c (by simp)
      have := ih (fun x hx => hds x (by simp [hx]))
      simp [List.takeWhile, List.dropWhile, hc, this.1, this.2]

/-- A decimal digit run followed by a non-digit is uniquely decodable. -/
theorem natDigits_det {n m : Nat} {r1 r2 : List Char} (h1 : headNotDigit r1)
    (h2 : headNotDigit r2) (h : natDigits n ++ r1 = natDigits m ++ r2) :
    n = m ∧ r1 = r2 := by
  have t1 := takeWhile_digits (natDigits n) (natDigits_all_digit n) r1 h1
  have t2 := takeWhile_digits (natDigits m) (natDigits_all_digit m) r2 h2
  rw [h] at t1
  have hd : natDigits n = natDigits m := t1.1.symm.trans t2.1
  exact ⟨natDigits_inj hd, t1.2.symm.trans t2.2⟩

/-! ## UTF-8

Models Rust's `str::as_bytes` (UTF-8 encoding, identical to the canonical
UTF-8 of a Lean `String`) and the strict `std::str::from_utf8` parser,
which rejects invalid continuation bytes, overlong forms, surrogates and
code points above `0x10FFFF`. -/

/-- UTF-8 bytes of one character. -/
def utf8EncodeChar (c : Char) : List Nat :=
  if c.toNat < 128 then [c.toNat]
  else if c.toNat < 2048 then [192 + c.toNat / 64, 128 + c.toNat % 64]
  else if c.toNat < 65536 then
    [224 + c.toNat / 4096, 128 + (c.toNat / 64) % 64, 128 + c.toNat % 64]
  else
    [240 + c.toNat / 262144, 128 + (c.toNat / 4096) % 64, 128 + (c.toNat / 64) % 64,
      128 + c.toNat % 64]

/-- UTF-8 bytes of a character list. -/
def utf8EncodeL (cs : List Char) : List Nat :=
  cs.flatMap utf8EncodeChar

/-- UTF-8 bytes of a string, as produced by Rust's `str::as_bytes`. -/
def utf8Encode (s : String) : List Nat :=
  utf8EncodeL s.data

/-- Continuation byte test (`10xxxxxx`). -/
def isCont (b : Nat) : Bool :=
  128 ≤ b ∧ b < 192

/-- Continuation of a two-byte UTF-8 sequence. -/
def utf8Step2 (b0 : Nat) : List Nat → Option (Nat × List Nat)
  | b1 :: t1 =>
      if isCont b1 then
        if 128 ≤ (b0 - 192) * 64 + (b1 - 128) then
          some ((b0 - 192) * 64 + (b1 - 128), t1)
        else none
      else none
  | [] => none

/-- Continuation of a three-byte UTF-8 sequence. -/
def utf8Step3 (b0 : Nat) : List Nat → Option (Nat × List Nat)
  | b1 :: b2 :: t2 =>
      if isCont b1 ∧ isCont b2 then
        if 2048 ≤ (b0 - 224) * 4096 + (b1 - 128) * 64 + (b2 - 128) ∧
            ¬(55296 ≤ (b0 - 224) * 4096 + (b1 - 128) * 64 + (b2 - 128) ∧
              (b0 - 224) * 4096 + (b1 - 128) * 64 + (b2 - 128) < 57344) then
          some ((b0 - 224) * 4096 + (b1 - 128) * 64 + (b2 - 128), t2)
        else none
      else none
  | _ => none

/-- Continuation of a four-byte UTF-8 sequence. -/
def utf8Step4 (b0 : Nat) : List Nat → Option (Nat × List Nat)
  | b1 :: b2 :: b3 :: t3 =>
      if isCont b1 ∧ isCont b2 ∧ isCont b3 then
        if 65536 ≤ (b0 - 240) * 262144 + (b1 - 128) * 4096 + (b2 - 128) * 64 + (b3 - 128) ∧
            (b0 - 240) * 262144 + (b1 - 128) * 4096 + (b2 - 128) * 64 + (b3 - 128) < 1114112 then
          some ((b0 - 240) * 262144 + (b1 - 128) * 4096 + (b2 - 128) * 64 + (b3 - 128), t3)
        else none
      else none
  | _ => none

/-- Decoding of one UTF-8 code point from the front of a buffer, with the
strict checks of `std::str::from_utf8`: continuation bytes must be
`10xxxxxx`, and overlong forms, surrogates and values above `0x10FFFF`
are rejected. -/
def utf8Step : List Nat → Option (Nat × List Nat)
  | [] => none
  | b0 :: t0 =>
      if b0 < 128 then some (b0, t0)
      else if b0 < 192 then none
      else if b0 < 224 then utf8Step2 b0 t0
      else if b0 < 240 then utf8Step3 b0 t0
      else if b0 < 248 then utf8Step4 b0 t0
      else none

/-- Fueled UTF-8 parsing loop; fuel equal to the buffer length always
suffices because every step consumes at least one byte. -/
def utf8DecodeAux : Nat → List Nat → Option (List Char)
  | _, [] => some []
  | 0, _ :: _ => none
  | fuel + 1, b0 :: t0 =>
      match utf8Step (b0 :: t0) with
      | none => none
      | some (n, t) =>
          match utf8DecodeAux fuel t with
          | none => none
          | some cs => some (Char.ofNat n :: cs)

/-- Strict UTF-8 parser over bytes, as in `std::str::from_utf8`. -/
def utf8DecodeL (l : List Nat) : Option (List Char) :=
  utf8DecodeAux l.length l

theorem char_toNat_valid (c : Char) :
    c.toNat < 55296 ∨ (57344 ≤ c.toNat ∧ c.toNat < 1114112) := by
  have h := c.valid
  rcases h with h | h
  · left
    exact h
  · right
    exact h

theorem char_ofNat_toNat_of_valid {n : Nat}
    (h : n < 55296 ∨ (57344 ≤ n ∧ n < 1114112)) : (Char.ofNat n).toNat = n := by
  have hv : Nat.isValidChar n := by
    rcases h with h | h
    · exact Or.inl h
    · exact Or.inr ⟨h.1, h.2⟩
  unfold Char.ofNat
  rw [dif_pos hv]
  rfl

theorem utf8EncodeChar_bytes (c : Char) : ∀ b ∈ utf8EncodeChar c, b < 256 := by
  have hv := char_toNat_valid c
  unfold utf8EncodeChar
  intro b hb
  split at hb
  · simp at hb
    omega
  · split at hb
    · simp at hb
      rcases hb with hb | hb <;> omega
    · split at hb
      · simp at hb
        rcases hb with hb | hb | hb <;> omega
      · simp at hb
        rcases hb with hb | hb | hb | hb <;> omega

/-- Decoding one encoded code point from the front of a buffer. -/
theorem utf8Step_encodeChar (c : Char) (rest : List Nat) :
    utf8Step (utf8EncodeChar c ++ rest) = some (c.toNat, rest) := by
  have hv := char_toNat_valid c
  unfold utf8EncodeChar
  by_cases h1 : c.toNat < 128
  · rw [if_pos h1]
    simp only [List.cons_append, List.nil_append, utf8Step]
    rw [if_pos h1]
  · rw [if_neg h1]
    by_cases h2 : c.toNat < 2048
    · rw [if_pos h2]
      simp only [List.cons_append, List.nil_append, utf8Step]
      rw [if_neg (by omega), if_neg (by omega), if_pos (by omega)]
      simp only [utf8Step2]
      have e1 : isCont (128 + c.toNat % 64) = true := by
        simp [isCont]
        omega
      have e2 : (192 + c.toNat / 64 - 192) * 64 + (128 + c.toNat % 64 - 128) = c.toNat := by
        omega
      rw [if_pos e1, if_pos (by omega), e2]
    · rw [if_neg h2]
      by_cases h3 : c.toNat < 65536
      · rw [if_pos h3]
        simp only [List.cons_append, List.nil_append, utf8Step]
        rw [if_neg (by omega), if_neg (by omega), if_neg (by omega), if_pos (by omega)]
        simp only [utf8Step3]
        have e1 : (isCont (128 + c.toNat / 64 % 64) ∧ isCont (128 + c.toNat % 64)) := by
          simp [isCont]
          omega
        have e2 : (224 + c.toNat / 4096 - 224) * 4096 + (128 + c.toNat / 64 % 64 - 128) * 64 +
            (128 + c.toNat % 64 - 128) = c.toNat := by
          omega
        rw [if_pos e1, if_pos (by constructor <;> omega), e2]
      · rw [if_neg h3]
        simp only [List.cons_append, List.nil_append, utf8Step]
        rw [if_neg (by omega), if_neg (by omega), if_neg (by omega), if_neg (by omega),
          if_pos (by omega)]
        simp only [utf8Step4]
        have e1 : (isCont (128 + c.toNat / 4096 % 64) ∧ isCont (128 + c.toNat / 64 % 64) ∧
            isCont (128 + c.toNat % 64)) := by
          simp [isCont]
          omega
        have e2 : (240 + c.toNat / 262144 - 240) * 262144 +
            (128 + c.toNat / 4096 % 64 - 128) * 4096 +
            (128 + c.toNat / 64 % 64 - 128) * 64 + (128 + c.toNat % 64 - 128) = c.toNat := by
          omega
        rw [if_pos e1, if_pos (by constructor <;> omega), e2]

theorem utf8EncodeChar_ne_nil (c : Char) : utf8EncodeChar c ≠ [] := by
  unfold utf8EncodeChar
  split
  · simp
  · split
    · simp
    · split <;> simp

theorem utf8Step2_shrink {b0 n : Nat} {t0 t : List Nat}
    (h : utf8Step2 b0 t0 = some (n, t)) : t.length < t0.length := by
  cases t0 with
  | nil => simp [utf8Step2] at h
  | cons b1 t1 =>
      simp only [utf8Step2] at h
      split at h
      · split at h
        · simp at h
          simp [h.2.symm]
        · simp at h
      · simp at h

theorem utf8Step3_shrink {b0 n : Nat} {t0 t : List Nat}
    (h : utf8Step3 b0 t0 = some (n, t)) : t.length < t0.length := by
  match t0 with
  | [] => simp [utf8Step3] at h
  | [_] => simp [utf8Step3] at h
  | b1 :: b2 :: t2 =>
      simp only [utf8Step3] at h
      split at h
      · split at h
        · simp at h
          simp [h.2.symm]
          omega
        · simp at h
      · simp at h

theorem utf8Step4_shrink {b0 n : Nat} {t0 t : List Nat}
    (h : utf8Step4 b0 t0 = some (n, t)) : t.length < t0.length := by
  match t0 with
  | [] => simp [utf8Step4] at h
  | [_] => simp [utf8Step4] at h
  | [_, _] => simp [utf8Step4] at h
  | b1 :: b2 :: b3 :: t3 =>
      simp only [utf8Step4] at h
      split at h
      · split at h
        · simp at h
          simp [h.2.symm]
          omega
        · simp at h
      · simp at h

/-- Every successful step consumes at least one byte. -/
theorem utf8Step_shrink {l t : List Nat} {n : Nat}
    (h : utf8Step l = some (n, t)) : t.length < l.length := by
  cases l with
  | nil => simp [utf8Step] at h
  | cons b0 t0 =>
      simp only [utf8Step] at h
      split_ifs at h
      · simp at h
        simp [h.2.symm]
      · exact Nat.lt_succ_of_lt (utf8Step2_shrink h)
      · exact Nat.lt_succ_of_lt (utf8Step3_shrink h)
      · exact Nat.lt_succ_of_lt (utf8Step4_shrink h)

theorem utf8DecodeAux_fuel (f1 : Nat) : ∀ f2 l, l.length ≤ f1 → l.length ≤ f2 →
    utf8DecodeAux f1 l = utf8DecodeAux f2 l := by
  induction f1 with
  | zero =>
      intro f2 l h1 _
      have : l = [] := by
        cases l
        · rfl
        · simp at h1
      subst this
      cases f2 <;> simp [utf8DecodeAux]
  | succ g1 ih =>
      intro f2 l h1 h2
      cases l with
      | nil => cases f2 <;> simp [utf8DecodeAux]
      | cons b0 t0 =>
          match f2, h2 with
          | g2 + 1, h2a =>
            rw [utf8DecodeAux, utf8DecodeAux]
            cases hstep : utf8Step (b0 :: t0) with
            | none => rfl
            | some nt =>
                obtain ⟨n, t⟩ := nt
                have hlt := utf8Step_shrink hstep
                simp only []
                rw [ih g2 t (by simp at h1 hlt ⊢; omega) (by simp at h2a hlt ⊢; omega)]

/-- Decoding one encoded character from the front of a buffer. -/
theorem utf8DecodeL_encodeChar (c : Char) (rest : List Nat) :
    utf8DecodeL (utf8EncodeChar c ++ rest) =
      (utf8DecodeL rest).map (fun cs => c :: cs) := by
  have hid : Char.ofNat c.toNat = c := Char.ofNat_toNat c
  obtain ⟨b, t0, hbt⟩ : ∃ b t0, utf8EncodeChar c = b :: t0 := by
    cases h : utf8EncodeChar c with
    | nil => exact absurd h (utf8EncodeChar_ne_nil c)
    | cons b t0 => exact ⟨b, t0, rfl⟩
  have hstep := utf8Step_encodeChar c rest
  rw [hbt] at hstep
  rw [List.cons_append] at hstep
  rw [utf8DecodeL, hbt]
  simp only [List.cons_append, List.length_cons]
  rw [utf8DecodeAux, hstep]
  have hfuel : utf8DecodeAux (t0 ++ rest).length rest = utf8DecodeL rest := by
    apply utf8DecodeAux_fuel
    · simp
    · simp
  simp only []
  rw [hfuel]
  cases utf8DecodeL rest <;> simp [hid]

/-- Round trip: strict UTF-8 decoding inverts UTF-8 encoding. -/
theorem utf8DecodeL_utf8EncodeL (cs : List Char) :
    utf8DecodeL (utf8EncodeL cs) = some cs := by
  induction cs with
  | nil => rfl
  | cons c t ih =>
      have : utf8EncodeL (c :: t) = utf8EncodeChar c ++ utf8EncodeL t := by
        simp [utf8EncodeL]
      rw [this, utf8DecodeL_encodeChar, ih]
      rfl

theorem utf8Decode_utf8Encode (s : String) :
    utf8DecodeL (utf8Encode s) = some s.data :=
  utf8DecodeL_utf8EncodeL s.data

theorem utf8EncodeL_bytes (cs : List Char) : ∀ b ∈ utf8EncodeL cs, b < 256 := by
  intro b hb
  simp only [utf8EncodeL, List.mem_flatMap] at hb
  obtain ⟨c, _, hc⟩ := hb
  exact utf8EncodeChar_bytes c b hc

theorem utf8EncodeL_eq_nil_iff (cs : List Char) : utf8EncodeL cs = [] ↔ cs = [] := by
  cases cs with
  | nil => simp [utf8EncodeL]
  | cons c t =>
      simp [utf8EncodeL]
      intro h
      exact absurd h (utf8EncodeChar_ne_nil c)

/-! ## Canonical JSON serialization

Models the compact `serde_json::to_string` output of the canonical hash
preimage `json!([0, pubkey, created_at, kind, tags, content])` built in
`Event::hash` (`src/event.rs`).  `serde_json` escapes `"`, `\` and the
control characters below `0x20` (with the short forms for backspace, tab,
newline, form feed and carriage return, and lowercase `\u00xx` for the
rest), and renders everything else verbatim. -/

/-- Escape of one character inside a JSON string literal. -/
def escapeChar (c : Char) : List Char :=
  if c = '"' then ['\\', '"']
  else if c = '\\' then ['\\', '\\']
  else if c.toNat = 8 then ['\\', 'b']
  else if c.toNat = 9 then ['\\', 't']
  else if c.toNat = 10 then ['\\', 'n']
  else if c.toNat = 12 then ['\\', 'f']
  else if c.toNat = 13 then ['\\', 'r']
  else if c.toNat < 32 then
    ['\\', 'u', '0', '0', hexDigit (c.toNat / 16), hexDigit (c.toNat % 16)]
  else [c]

/-- Escaped body of a JSON string literal. -/
def escapeL (s : List Char) : List Char :=
  s.flatMap escapeChar

/-- A JSON string literal: quote, escaped body, quote. -/
def jStr (s : List Char) : List Char :=
  '"' :: escapeL s ++ ['"']

/-- Parser for a `\\u00xx` escape, after the `\\u`. -/
def jUEsc : List Char → Option (Char × List Char)
  | z1 :: z2 :: d1 :: d2 :: t3 =>
      if z1 = '0' ∧ z2 = '0' then
        match hexDigitVal d1, hexDigitVal d2 with
        | some v1, some v2 => some (Char.ofNat (16 * v1 + v2), t3)
        | _, _ => none
      else none
  | _ => none

/-- Parser for one escape sequence, after the backslash. -/
def jEscStep : List Char → Option (Char × List Char)
  | [] => none
  | d :: t2 =>
      if d = '"' then some ('"', t2)
      else if d = '\\' then some ('\\', t2)
      else if d = 'b' then some (Char.ofNat 8, t2)
      else if d = 't' then some (Char.ofNat 9, t2)
      else if d = 'n' then some (Char.ofNat 10, t2)
      else if d = 'f' then some (Char.ofNat 12, t2)
      else if d = 'r' then some (Char.ofNat 13, t2)
      else if d = 'u' then jUEsc t2
      else none

/-- Fueled parser for the body of a JSON string literal, up to and past
the closing quote; used only to show the serializer is injective. -/
def jBodyAux : Nat → List Char → Option (List Char × List Char)
  | 0, _ => none
  | _ + 1, [] => none
  | fuel + 1, c :: t =>
      if c = '"' then some ([], t)
      else if c = '\\' then
        match jEscStep t with
        | none => none
        | some (e, t2) => (jBodyAux fuel t2).map (fun p => (e :: p.1, p.2))
      else (jBodyAux fuel t).map (fun p => (c :: p.1, p.2))

/-- Parsing an escaped body followed by a closing quote recovers the
original characters and the trailing input. -/
theorem jBodyAux_escapeL (s : List Char) : ∀ fuel r,
    (escapeL s).length + 1 ≤ fuel →
    jBodyAux fuel (escapeL s ++ '"' :: r) = some (s, r) := by
  induction s with
  | nil =>
      intro fuel r hf
      match fuel, hf with
      | f + 1, _ =>
        simp only [escapeL, List.flatMap_nil, List.nil_append]
        rw [jBodyAux, if_pos rfl]
  | cons c s ih =>
      intro fuel r hf
      have hsplit : escapeL (c :: s) = escapeChar c ++ escapeL s := by
        simp [escapeL]
      rw [hsplit] at hf ⊢
      rw [List.length_append] at hf
      have hclen : 1 ≤ (escapeChar c).length := by
        unfold escapeChar
        split
        · simp
        · split
          · simp
          · split
            · simp
            · split
              · simp
              · split
                · simp
                · split
                  · simp
                  · split
                    · simp
                    · split <;> simp
      match fuel, hf with
      | f + 1, _ =>
        have hrec : jBodyAux f (escapeL s ++ '"' :: r) = some (s, r) := by
          apply ih
          omega
        unfold escapeChar
        by_cases h1 : c = '"'
        · rw [if_pos h1]
          simp only [List.cons_append, List.nil_append]
          rw [jBodyAux, if_neg (by decide), if_pos rfl]
          have he : jEscStep ('"' :: (escapeL s ++ '"' :: r)) =
              some ('"', escapeL s ++ '"' :: r) := by
            rw [jEscStep, if_pos rfl]
          rw [he]
          simp only []
          rw [hrec]
          simp [h1]
        · rw [if_neg h1]
          by_cases h2 : c = '\\'
          · rw [if_pos h2]
            simp only [List.cons_append, List.nil_append]
            rw [jBodyAux, if_neg (by decide), if_pos rfl]
            have he : jEscStep ('\\' :: (escapeL s ++ '"' :: r)) =
                some ('\\', escapeL s ++ '"' :: r) := by
              rw [jEscStep, if_neg (by decide), if_pos rfl]
            rw [he]
            simp only []
            rw [hrec]
            simp [h2]
          · rw [if_neg h2]
            by_cases h3 : c.toNat = 8
            · rw [if_pos h3]
              simp only [List.cons_append, List.nil_append]
              rw [jBodyAux, if_neg (by decide), if_pos rfl]
              have he : jEscStep ('b' :: (escapeL s ++ '"' :: r)) =
                  some (Char.ofNat 8, escapeL s ++ '"' :: r) := by
                rw [jEscStep, if_neg (by decide), if_neg (by decide), if_pos rfl]
              rw [he]
              simp only []
              rw [hrec]
              have hc : Char.ofNat 8 = c := by
                rw [← h3]
                exact Char.ofNat_toNat c
              subst hc
              simp
            · rw [if_neg h3]
              by_cases h4 : c.toNat = 9
              · rw [if_pos h4]
                simp only [List.cons_append, List.nil_append]
                rw [jBodyAux, if_neg (by decide), if_pos rfl]
                have he : jEscStep ('t' :: (escapeL s ++ '"' :: r)) =
                    some (Char.ofNat 9, escapeL s ++ '"' :: r) := by
                  rw [jEscStep, if_neg (by decide), if_neg (by decide), if_neg (by decide),
                    if_pos rfl]
                rw [he]
                simp only []
                rw [hrec]
                have hc : Char.ofNat 9 = c := by
                  rw [← h4]
                  exact Char.ofNat_toNat c
                subst hc
                simp
              · rw [if_neg h4]
                by_cases h5 : c.toNat = 10
                · rw [if_pos h5]
                  simp only [List.cons_append, List.nil_append]
                  rw [jBodyAux, if_neg (by decide), if_pos rfl]
                  have he : jEscStep ('n' :: (escapeL s ++ '"' :: r)) =
                      some (Char.ofNat 10, escapeL s ++ '"' :: r) := by
                    rw [jEscStep, if_neg (by decide), if_neg (by decide), if_neg (by decide),
                      if_neg (by decide), if_pos rfl]
                  rw [he]
                  simp only []
                  rw [hrec]
                  have hc : Char.ofNat 10 = c := by
                    rw [← h5]
                    exact Char.ofNat_toNat c
                  subst hc
                  simp
                · rw [if_neg h5]
                  by_cases h6 : c.toNat = 12
                  · rw [if_pos h6]
                    simp only [List.cons_append, List.nil_append]
                    rw [jBodyAux, if_neg (by decide), if_pos rfl]
                    have he : jEscStep ('f' :: (escapeL s ++ '"' :: r)) =
                        some (Char.ofNat 12, escapeL s ++ '"' :: r) := by
                      rw [jEscStep, if_neg (by decide), if_neg (by decide), if_neg (by decide),
                        if_neg (by decide), if_neg (by decide), if_pos rfl]
                    rw [he]
                    simp only []
                    rw [hrec]
                    have hc : Char.ofNat 12 = c := by
                      rw [← h6]
                      exact Char.ofNat_toNat c
                    subst hc
                    simp
                  · rw [if_neg h6]
                    by_cases h7 : c.toNat = 13
                    · rw [if_pos h7]
                      simp only [List.cons_append, List.nil_append]
                      rw [jBodyAux, if_neg (by decide), if_pos rfl]
                      have he : jEscStep ('r' :: (escapeL s ++ '"' :: r)) =
                          some (Char.ofNat 13, escapeL s ++ '"' :: r) := by
                        rw [jEscStep, if_neg (by decide), if_neg (by decide), if_neg (by decide),
                          if_neg (by decide), if_neg (by decide), if_neg (by decide), if_pos rfl]
                      rw [he]
                      simp only []
                      rw [hrec]
                      have hc : Char.ofNat 13 = c := by
                        rw [← h7]
                        exact Char.ofNat_toNat c
                      subst hc
                      simp
                    · rw [if_neg h7]
                      by_cases h8 : c.toNat < 32
                      · rw [if_pos h8]
                        simp only [List.cons_append, List.nil_append]
                        rw [jBodyAux, if_neg (by decide), if_pos rfl]
                        have e1 : hexDigitVal (hexDigit (c.toNat / 16)) = some (c.toNat / 16) :=
                          hexDigitVal_hexDigit _ (by omega)
                        have e2 : hexDigitVal (hexDigit (c.toNat % 16)) = some (c.toNat % 16) :=
                          hexDigitVal_hexDigit _ (by omega)
                        have he : jEscStep ('u' :: '0' :: '0' :: hexDigit (c.toNat / 16) ::
                            hexDigit (c.toNat % 16) :: (escapeL s ++ '"' :: r)) =
                            some (Char.ofNat (16 * (c.toNat / 16) + c.toNat % 16),
                              escapeL s ++ '"' :: r) := by
                          rw [jEscStep, if_neg (by decide), if_neg (by decide),
                            if_neg (by decide), if_neg (by decide), if_neg (by decide),
                            if_neg (by decide), if_neg (by decide), if_pos rfl]
                          rw [jUEsc, if_pos (by constructor <;> rfl), e1, e2]
                        rw [he]
                        simp only []
                        rw [hrec]
                        have hc : Char.ofNat (16 * (c.toNat / 16) + c.toNat % 16) = c := by
                          have hm : 16 * (c.toNat / 16) + c.toNat % 16 = c.toNat := by omega
                          rw [hm]
                          exact Char.ofNat_toNat c
                        have hmap : Option.map
                            (fun p => (Char.ofNat (16 * (c.toNat / 16) + c.toNat % 16) :: p.1, p.2))
                            (some (s, r)) =
                            some (Char.ofNat (16 * (c.toNat / 16) + c.toNat % 16) :: s, r) := rfl
                        rw [hmap, hc]
                      · rw [if_neg h8]
                        simp only [List.cons_append, List.nil_append]
                        rw [jBodyAux, if_neg h1, if_neg h2]
                        rw [hrec]
                        rfl

/-- Parser for a whole JSON string literal. -/
def jStrParse : List Char → Option (List Char × List Char)
  | [] => none
  | c :: t => if c = '"' then jBodyAux (t.length + 1) t else none

theorem jStrParse_jStr (s : List Char) (r : List Char) :
    jStrParse (jStr s ++ r) = some (s, r) := by
  rw [jStr]
  simp only [List.cons_append, List.append_assoc, List.nil_append]
  rw [jStrParse, if_pos rfl]
  apply jBodyAux_escapeL
  simp

/-- JSON string literals are uniquely decodable. -/
theorem jStr_det {s1 s2 r1 r2 : List Char}
    (h : jStr s1 ++ r1 = jStr s2 ++ r2) : s1 = s2 ∧ r1 = r2 := by
  have p1 := jStrParse_jStr s1 r1
  have p2 := jStrParse_jStr s2 r2
  rw [h, p2] at p1
  simp at p1
  exact ⟨p1.1.symm, p1.2.symm⟩

/-- Comma-separated concatenation, as in a compact JSON array body. -/
def sepComma : List (List Char) → List Char
  | [] => []
  | [x] => x
  | x :: xs => x ++ ',' :: sepComma xs

/-- A compact JSON array around already-rendered elements. -/
def jArr (xs : List (List Char)) : List Char :=
  '[' :: sepComma xs ++ [']']

theorem sepComma_cons2 (x y : List Char) (ys : List (List Char)) :
    sepComma (x :: y :: ys) = x ++ ',' :: sepComma (y :: ys) := rfl

/-- A comma-separated list of uniquely-decodable elements, terminated by a
closing bracket, is uniquely decodable, provided no element starts with a
comma or a closing bracket. -/
theorem sepComma_det {A : Type} (f : A → List Char)
    (hdet : ∀ a b t1 t2, f a ++ t1 = f b ++ t2 → a = b ∧ t1 = t2)
    (hhead : ∀ a, ∃ c cs, f a = c :: cs ∧ c ≠ ',' ∧ c ≠ ']') :
    ∀ (l1 l2 : List A) (r1 r2 : List Char),
      sepComma (l1.map f) ++ ']' :: r1 = sepComma (l2.map f) ++ ']' :: r2 →
      l1 = l2 ∧ r1 = r2 := by
  intro l1
  induction l1 with
  | nil =>
      intro l2 r1 r2 h
      cases l2 with
      | nil =>
          simp [sepComma] at h
          exact ⟨rfl, h⟩
      | cons b l2a =>
          obtain ⟨c, cs, hfb, hc1, hc2⟩ := hhead b
          cases l2a with
          | nil =>
              simp only [List.map_cons, List.map_nil, sepComma, List.nil_append, hfb] at h
              simp only [List.cons_append] at h
              exact absurd (List.head_eq_of_cons_eq h).symm hc2
          | cons b2 l2b =>
              simp only [List.map_cons, sepComma_cons2, List.nil_append, hfb] at h
              simp only [List.cons_append, List.append_assoc] at h
              exact absurd (List.head_eq_of_cons_eq h).symm hc2
  | cons a l1a ih =>
      intro l2 r1 r2 h
      cases l2 with
      | nil =>
          obtain ⟨c, cs, hfa, hc1, hc2⟩ := hhead a
          cases l1a with
          | nil =>
              simp only [List.map_cons, List.map_nil, sepComma, List.nil_append, hfa] at h
              simp only [List.cons_append] at h
              exact absurd (List.head_eq_of_cons_eq h) hc2
          | cons a2 l1b =>
              simp only [List.map_cons, sepComma_cons2, List.nil_append, hfa] at h
              simp only [List.cons_append, List.append_assoc] at h
              exact absurd (List.head_eq_of_cons_eq h) hc2
      | cons b l2a =>
          cases l1a with
          | nil =>
              cases l2a with
              | nil =>
                  simp only [List.map_cons, List.map_nil, sepComma] at h
                  obtain ⟨hab, ht⟩ := hdet a b _ _ h
                  simp at ht
                  exact ⟨by rw [hab], ht⟩
              | cons b2 l2b =>
                  simp only [List.map_cons, List.map_nil, sepComma, sepComma_cons2] at h
                  rw [List.append_assoc] at h
                  obtain ⟨hab, ht⟩ := hdet a b _ _ h
                  simp at ht
          | cons a2 l1b =>
              cases l2a with
              | nil =>
                  simp only [List.map_cons, List.map_nil, sepComma, sepComma_cons2] at h
                  rw [List.append_assoc] at h
                  obtain ⟨hab, ht⟩ := hdet a b _ _ h
                  simp at ht
              | cons b2 l2b =>
                  simp only [List.map_cons, sepComma_cons2] at h
                  rw [List.append_assoc, List.append_assoc] at h
                  obtain ⟨hab, ht⟩ := hdet a b _ _ h
                  simp only [List.cons_append, List.cons.injEq, true_and] at ht
                  have ht2 : sepComma ((a2 :: l1b).map f) ++ ']' :: r1 =
                      sepComma ((b2 :: l2b).map f) ++ ']' :: r2 := by
                    simpa using ht
                  obtain ⟨hl, hr⟩ := ih (b2 :: l2b) r1 r2 ht2
                  exact ⟨by rw [hab, hl], hr⟩

theorem jArr_append (xs : List (List Char)) (r : List Char) :
    jArr xs ++ r = '[' :: (sepComma xs ++ ']' :: r) := by
  simp [jArr]

/-- A rendered JSON array followed by arbitrary input is uniquely
decodable under the same element conditions. -/
theorem jArr_det {A : Type} (f : A → List Char)
    (hdet : ∀ a b t1 t2, f a ++ t1 = f b ++ t2 → a = b ∧ t1 = t2)
    (hhead : ∀ a, ∃ c cs, f a = c :: cs ∧ c ≠ ',' ∧ c ≠ ']')
    (l1 l2 : List A) (r1 r2 : List Char)
    (h : jArr (l1.map f) ++ r1 = jArr (l2.map f) ++ r2) : l1 = l2 ∧ r1 = r2 := by
  rw [jArr_append, jArr_append] at h
  exact sepComma_det f hdet hhead l1 l2 r1 r2 (List.tail_eq_of_cons_eq h)

theorem string_data_inj {a b : String} (h : a.data = b.data) : a = b := by
  cases a
  cases b
  exact congrArg String.mk h

/-- A Rust `String` rendered as a JSON string literal. -/
def jStrS (s : String) : List Char :=
  jStr s.data

/-- One event `Tag` (a vector of strings) rendered as a JSON array. -/
def jTagEnc (t : List String) : List Char :=
  jArr (t.map jStrS)

/-- The `tags` field rendered as a JSON array of arrays. -/
def jTagsEnc (tags : List (List String)) : List Char :=
  jArr (tags.map jTagEnc)

theorem jStrS_det : ∀ (a b : String) (t1 t2 : List Char),
    jStrS a ++ t1 = jStrS b ++ t2 → a = b ∧ t1 = t2 := by
  intro a b t1 t2 h
  obtain ⟨hd, ht⟩ := jStr_det h
  exact ⟨string_data_inj hd, ht⟩

theorem jStrS_head : ∀ a : String, ∃ c cs, jStrS a = c :: cs ∧ c ≠ ',' ∧ c ≠ ']' := by
  intro a
  refine ⟨'"', escapeL a.data ++ ['"'], rfl, by decide, by decide⟩

theorem jTagEnc_det : ∀ (a b : List String) (t1 t2 : List Char),
    jTagEnc a ++ t1 = jTagEnc b ++ t2 → a = b ∧ t1 = t2 := by
  intro a b t1 t2 h
  exact jArr_det jStrS jStrS_det jStrS_head a b t1 t2 h

theorem jTagEnc_head : ∀ a : List String, ∃ c cs, jTagEnc a = c :: cs ∧ c ≠ ',' ∧ c ≠ ']' := by
  intro a
  refine ⟨'[', sepComma (a.map jStrS) ++ [']'], rfl, by decide, by decide⟩

theorem jTagsEnc_det {a b : List (List String)} {t1 t2 : List Char}
    (h : jTagsEnc a ++ t1 = jTagsEnc b ++ t2) : a = b ∧ t1 = t2 :=
  jArr_det jTagEnc jTagEnc_det jTagEnc_head a b t1 t2 h

/-- The canonical hash preimage of `Event::hash`: the compact
serialization of `[0, pubkey, created_at, kind, tags, content]`. -/
def canonFields (pubkey : String) (created_at kind : Nat)
    (tags : List (List String)) (content : String) : List Char :=
  '[' :: '0' :: ',' :: (jStrS pubkey ++
    ',' :: (natDigits created_at ++
      ',' :: (natDigits kind ++
        ',' :: (jTagsEnc tags ++
          ',' :: (jStrS content ++ [']'])))))

theorem headNotDigit_comma (x : List Char) : headNotDigit (',' :: x) := by
  simp only [headNotDigit]
  decide

/-- The canonical serialization determines the five serialized fields:
two events with any differing field have different hash preimages. -/
theorem canonFields_inj {p1 p2 : String} {ca1 ca2 k1 k2 : Nat}
    {tg1 tg2 : List (List String)} {ct1 ct2 : String}
    (h : canonFields p1 ca1 k1 tg1 ct1 = canonFields p2 ca2 k2 tg2 ct2) :
    p1 = p2 ∧ ca1 = ca2 ∧ k1 = k2 ∧ tg1 = tg2 ∧ ct1 = ct2 := by
  unfold canonFields at h
  have h1 := List.tail_eq_of_cons_eq (List.tail_eq_of_cons_eq (List.tail_eq_of_cons_eq h))
  obtain ⟨hp, h2⟩ := jStrS_det p1 p2 _ _ h1
  have h3 := List.tail_eq_of_cons_eq h2
  obtain ⟨hca, h4⟩ := natDigits_det (headNotDigit_comma _) (headNotDigit_comma _) h3
  have h5 := List.tail_eq_of_cons_eq h4
  obtain ⟨hk, h6⟩ := natDigits_det (headNotDigit_comma _) (headNotDigit_comma _) h5
  have h7 := List.tail_eq_of_cons_eq h6
  obtain ⟨htg, h8⟩ := jTagsEnc_det h7
  have h9 := List.tail_eq_of_cons_eq h8
  obtain ⟨hct, _⟩ := jStrS_det ct1 ct2 _ _ h9
  exact ⟨hp, hca, hk, htg, hct⟩

/-! ## secp256k1 field arithmetic for x-only key validity

`XOnlyPublicKey::from_slice` accepts exactly the 32-byte big-endian
values `x < p` such that `x^3 + 7` is a square modulo the field prime
`p`; this is implemented concretely so that validity of concrete keys
(such as the all-zero placeholder) is decidable.  The remaining
primitives of the `secp256k1` crate are abstract parameters. -/

/-- The secp256k1 base field prime `2^256 - 2^32 - 977`. -/
def secpP : Nat := 2 ^ 256 - 2 ^ 32 - 977

/-- Fueled square-and-multiply; fuel `e + 1` always suffices. -/
def powModAux : Nat → Nat → Nat → Nat → Nat
  | 0, _, _, _ => 0
  | fuel + 1, b, e, m =>
      if e = 0 then 1 % m
      else
        if e % 2 = 0 then powModAux fuel b (e / 2) m * powModAux fuel b (e / 2) m % m
        else powModAux fuel b (e / 2) m * powModAux fuel b (e / 2) m % m * b % m

/-- Modular exponentiation. -/
def powMod (b e m : Nat) : Nat :=
  powModAux (e + 1) b e m

/-- Big-endian byte interpretation. -/
def bytesToNat (bs : List Nat) : Nat :=
  bs.foldl (fun a b => a * 256 + b) 0

/-- Models `XOnlyPublicKey::from_slice` validity: 32 bytes, value below
the field prime, and `x^3 + 7` a square mod `p` (Euler's criterion). -/
def pkValid (bs : List Nat) : Bool :=
  bs.length = 32 && bs.all (fun b => b < 256) &&
    (bytesToNat bs < secpP &&
      ((bytesToNat bs * bytesToNat bs % secpP * bytesToNat bs + 7) % secpP = 0 ||
        powMod ((bytesToNat bs * bytesToNat bs % secpP * bytesToNat bs + 7) % secpP)
          ((secpP - 1) / 2) secpP = 1))

theorem pkValid_shape {bs : List Nat} (h : pkValid bs = true) :
    bs.length = 32 ∧ ∀ b ∈ bs, b < 256 := by
  simp only [pkValid, Bool.and_eq_true, List.all_eq_true, decide_eq_true_eq] at h
  exact ⟨h.1.1, h.1.2⟩

/-! ## The abstract cryptographic context

The SHA-256 hash and the Schnorr signature primitives live in external
crates (`secp256k1`); they are modelled as parameters, constrained by
`CryptoOK` to the properties those crates guarantee: SHA-256 returns 32
bytes, signatures are 64 bytes, derived x-only public keys parse back,
and a signature made with a secret key verifies under the derived
public key. -/

structure Crypto where
  /-- SHA-256 of the canonical JSON text (`sha256::Hash::hash`). -/
  sha256 : List Char → List Nat
  /-- X-only public key bytes derived from secret key bytes. -/
  xOnlyPub : List Nat → List Nat
  /-- Schnorr signature of a 32-byte message under a secret key. -/
  schnorrSign : List Nat → List Nat → List Nat
  /-- Schnorr verification of signature, message, x-only public key. -/
  schnorrVerify : List Nat → List Nat → List Nat → Bool
  /-- Models `SecretKey::from_slice` validity (32 bytes in scalar range). -/
  skValid : List Nat → Bool

/-- The guarantees of the external cryptographic library. -/
structure CryptoOK (C : Crypto) : Prop where
  sha_len : ∀ s, (C.sha256 s).length = 32
  sha_bytes : ∀ s, ∀ b ∈ C.sha256 s, b < 256
  sign_len : ∀ sk m, (C.schnorrSign sk m).length = 64
  sign_bytes : ∀ sk m, ∀ b ∈ C.schnorrSign sk m, b < 256
  pub_valid : ∀ sk, pkValid (C.xOnlyPub sk) = true
  verify_sign : ∀ sk m, m.length = 32 →
    C.schnorrVerify (C.schnorrSign sk m) m (C.xOnlyPub sk) = true

/-! ## Key management (`src/key.rs`) -/

/-- The variants of `key::Error` used by the modelled operations:
`Key(secp256k1::Error)`, `Signature(String)`, `Mnemonic(mnemonic::Error)`. -/
inductive KeyError where
  | key
  | signature
  | mnemonic
  deriving DecidableEq

/-- `Pair` from `src/key.rs`: an optional secret key and a public key. -/
structure Pair where
  secret_key : Option (List Nat)
  public_key : List Nat
  deriving DecidableEq

/-- `Pair::from(&SecretKey)`: derives the x-only public key. -/
def Pair.fromSecretKey (C : Crypto) (sk : List Nat) : Pair :=
  ⟨some sk, C.xOnlyPub sk⟩

/-- `Pair::from(&PublicKey)`: no secret key. -/
def Pair.fromPublicKey (pk : List Nat) : Pair :=
  ⟨none, pk⟩

/-- `Pair::sign`: fails with the no-secret-key `Signature` error when the
pair holds no secret key, and with a `Key` error when the message is not
exactly 32 bytes (`Message::from_slice`). -/
def Pair.sign (C : Crypto) (p : Pair) (data : List Nat) : Except KeyError (List Nat) :=
  match p.secret_key with
  | some sk => if data.length = 32 then .ok (C.schnorrSign sk data) else .error .key
  | none => .error .signature

/-- `Pair::verify`: re-parses the signature from its hex display, parses
the 32-byte message, and runs Schnorr verification. -/
def Pair.verify (C : Crypto) (sig data pk : List Nat) : Except KeyError Unit :=
  match hexDecode (hexEncode sig) with
  | none => .error .key
  | some sigBytes =>
      if sigBytes.length = 64 then
        if data.length = 32 then
          if C.schnorrVerify sigBytes data pk then .ok () else .error .key
        else .error .key
      else .error .key

/-- `Signature::from_str` (`src/signature.rs`): 128 hex characters
giving 64 bytes. -/
def sigFromStr (s : String) : Except Unit (List Nat) :=
  match hexDecode s with
  | some bs => if bs.length = 64 then .ok bs else .error ()
  | none => .error ()

/-- `PublicKey::from_str` (`src/key.rs`): hex to 32 bytes, then the
curve validity check of `XOnlyPublicKey::from_slice`. -/
def pkFromStr (s : String) : Except KeyError (List Nat) :=
  match hexDecode s with
  | some bs => if pkValid bs then .ok bs else .error .key
  | none => .error .key

/-! ## Event identity (`src/event.rs`) -/

/-- `Event` from `src/event.rs`; `Hex` fields are strings, `created_at`
and `kind` are `u32` values, a `Tag` is a vector of strings. -/
structure Event where
  id : String
  pubkey : String
  created_at : Nat
  kind : Nat
  tags : List (List String)
  content : String
  sig : String
  deriving DecidableEq

/-- The canonical serialization hashed by `Event::hash`. -/
def Event.canon (e : Event) : List Char :=
  canonFields e.pubkey e.created_at e.kind e.tags e.content

/-- `Event::hash`: SHA-256 of the canonical serialization. -/
def Event.hashBytes (C : Crypto) (e : Event) : List Nat :=
  C.sha256 (Event.canon e)

/-- The event built by `Event::new` before id and sig are filled in:
the pair's public key in hex, the current time, and empty id and sig. -/
def Event.base (pair : Pair) (kind : Nat) (tags : List (List String))
    (content : String) (now : Nat) : Event :=
  { id := "", pubkey := hexEncode pair.public_key, created_at := now,
    kind := kind, tags := tags, content := content, sig := "" }

theorem Event.base_pubkey (pair : Pair) (kind : Nat) (tags : List (List String))
    (content : String) (now : Nat) :
    (Event.base pair kind tags content now).pubkey = hexEncode pair.public_key := rfl

/-- `Event::new`: builds the event with empty id and sig, hashes it,
signs the hash (`unwrap`: a signing error is a panic, modelled as
`none`), and fills in the hex id and sig. -/
def Event.new (C : Crypto) (kind : Nat) (tags : List (List String))
    (content : String) (pair : Pair) (now : Nat) : Option Event :=
  match Pair.sign C pair (Event.hashBytes C (Event.base pair kind tags content now)) with
  | .ok sig =>
      some { Event.base pair kind tags content now with
             id := hexEncode (Event.hashBytes C (Event.base pair kind tags content now)),
             sig := hexEncode sig }
  | .error _ => none

/-- The variants of `event::Error`. -/
inductive EventError where
  | hashMismatch
  | signature
  | verification (e : KeyError)
  | hex
  deriving DecidableEq

/-- `Event::verify`: recompute the hash and compare its hex form with
the stored id, then parse sig, id and pubkey, then verify the Schnorr
signature. -/
def Event.verify (C : Crypto) (e : Event) : Except EventError Unit :=
  if hexEncode (Event.hashBytes C e) ≠ e.id then .error .hashMismatch
  else
    match sigFromStr e.sig with
    | .error _ => .error .signature
    | .ok sig =>
        match hexDecode e.id with
        | none => .error .hex
        | some data =>
            match pkFromStr e.pubkey with
            | .error _ => .error (.verification .key)
            | .ok pk =>
                match Pair.verify C sig data pk with
                | .error err => .error (.verification err)
                | .ok _ => .ok ()

/-- C1: For every pair holding a secret key, every kind, tag list and
content string, the event returned by `Event::new` satisfies the event
identity invariant: its id equals the hex of sha256 of the canonical
JSON array of its own fields, its sig is a valid Schnorr signature over
that 32-byte hash under its pubkey, and `Event::verify` on the freshly
constructed event returns `Ok(())`. -/
theorem event_new_satisfies_invariant (C : Crypto) (hC : CryptoOK C) (pair : Pair)
    (sk : List Nat) (hsk : pair.secret_key = some sk)
    (hpk : pair.public_key = C.xOnlyPub sk)
    (kind now : Nat) (tags : List (List String)) (content : String) :
    ∃ e, Event.new C kind tags content pair now = some e ∧
      e.id = hexEncode (C.sha256 (Event.canon e)) ∧
      e.sig = hexEncode (C.schnorrSign sk (Event.hashBytes C e)) ∧
      C.schnorrVerify (C.schnorrSign sk (Event.hashBytes C e)) (Event.hashBytes C e)
        (C.xOnlyPub sk) = true ∧
      Event.verify C e = Except.ok () := by
  have hlen0 : (Event.hashBytes C (Event.base pair kind tags content now)).length = 32 :=
    hC.sha_len _
  have hsign : Pair.sign C pair (Event.hashBytes C (Event.base pair kind tags content now)) =
      .ok (C.schnorrSign sk (Event.hashBytes C (Event.base pair kind tags content now))) := by
    simp only [Pair.sign, hsk]
    rw [if_pos hlen0]
  refine ⟨{ Event.base pair kind tags content now with
      id := hexEncode (Event.hashBytes C (Event.base pair kind tags content now)),
      sig := hexEncode (C.schnorrSign sk
        (Event.hashBytes C (Event.base pair kind tags content now))) },
    ?_, rfl, rfl, ?_, ?_⟩
  · simp only [Event.new]
    rw [hsign]
  · exact hC.verify_sign sk _ (hC.sha_len _)
  · have hidok : hexEncode (Event.hashBytes C
        { Event.base pair kind tags content now with
          id := hexEncode (Event.hashBytes C (Event.base pair kind tags content now)),
          sig := hexEncode (C.schnorrSign sk
            (Event.hashBytes C (Event.base pair kind tags content now))) }) =
        hexEncode (Event.hashBytes C (Event.base pair kind tags content now)) := rfl
    rw [Event.verify, if_neg (by rw [hidok]; exact fun h => h rfl)]
    have hsigparse : sigFromStr (hexEncode (C.schnorrSign sk
        (Event.hashBytes C (Event.base pair kind tags content now)))) =
        .ok (C.schnorrSign sk (Event.hashBytes C (Event.base pair kind tags content now))) := by
      simp only [sigFromStr]
      rw [hexDecode_hexEncode _ (hC.sign_bytes _ _)]
      simp only []
      rw [if_pos (hC.sign_len _ _)]
    rw [hsigparse]
    simp only []
    have hidparse : hexDecode (hexEncode
        (Event.hashBytes C (Event.base pair kind tags content now))) =
        some (Event.hashBytes C (Event.base pair kind tags content now)) :=
      hexDecode_hexEncode _ (hC.sha_bytes _)
    rw [hidparse]
    simp only []
    have hpkparse : pkFromStr (hexEncode pair.public_key) = .ok (C.xOnlyPub sk) := by
      rw [hpk]
      simp only [pkFromStr]
      rw [hexDecode_hexEncode _ (pkValid_shape (hC.pub_valid sk)).2]
      simp only []
      rw [if_pos (hC.pub_valid sk)]
    rw [Event.base_pubkey]
    rw [hpkparse]
    simp only []
    have hver : Pair.verify C
        (C.schnorrSign sk (Event.hashBytes C (Event.base pair kind tags content now)))
        (Event.hashBytes C (Event.base pair kind tags content now))
        (C.xOnlyPub sk) = .ok () := by
      simp only [Pair.verify]
      rw [hexDecode_hexEncode _ (hC.sign_bytes _ _)]
      simp only []
      rw [if_pos (hC.sign_len _ _), if_pos hlen0,
        if_pos (hC.verify_sign sk _ hlen0)]
    rw [hver]

/-- C9: `Event::new` returns without panicking exactly when the pair
holds a secret key; a pair built from a public key alone makes the
internal `unwrap` panic, while with a secret key the internal sign call
succeeds. -/
theorem event_new_panics_iff_no_secret (C : Crypto) (hC : CryptoOK C) (pair : Pair)
    (kind now : Nat) (tags : List (List String)) (content : String) :
    Event.new C kind tags content pair now = none ↔ pair.secret_key = none := by
  cases hsk : pair.secret_key with
  | none =>
      simp only [Event.new, Pair.sign, hsk]
  | some sk =>
      simp only [Event.new, Pair.sign, hsk]
      rw [if_pos (show (Event.hashBytes C (Event.base pair kind tags content now)).length = 32
        from hC.sha_len _)]
      simp

/-- C3: mutating any of pubkey, created_at, kind, tags or content of a
signed event while keeping id and sig makes `Event::verify` fail with
the `HashMismatch` error (and not a signature error), as long as the two
distinct canonical serializations do not collide under SHA-256. -/
theorem verify_mutation_hash_mismatch (C : Crypto) (hC : CryptoOK C) (e e' : Event)
    (hid : e.id = hexEncode (C.sha256 (Event.canon e)))
    (hid' : e'.id = e.id) (hsig' : e'.sig = e.sig)
    (hdiff : e'.pubkey ≠ e.pubkey ∨ e'.created_at ≠ e.created_at ∨ e'.kind ≠ e.kind ∨
      e'.tags ≠ e.tags ∨ e'.content ≠ e.content)
    (hnocoll : C.sha256 (Event.canon e') = C.sha256 (Event.canon e) →
      Event.canon e' = Event.canon e) :
    Event.verify C e' = .error .hashMismatch := by
  have hcanon_ne : Event.canon e' ≠ Event.canon e := by
    intro hcontra
    obtain ⟨hp, hca, hk, htg, hct⟩ := canonFields_inj hcontra
    rcases hdiff with h | h | h | h | h <;> exact h (by assumption)
  have hsha_ne : C.sha256 (Event.canon e') ≠ C.sha256 (Event.canon e) :=
    fun hcontra => hcanon_ne (hnocoll hcontra)
  have hhex_ne : hexEncode (Event.hashBytes C e') ≠ e'.id := by
    rw [hid', hid]
    intro hcontra
    exact hsha_ne (hexEncode_inj (hC.sha_bytes _) (hC.sha_bytes _) hcontra)
  rw [Event.verify, if_pos hhex_ne]

/-! ## The bech32 TLV codec (`src/bech32/`)

The generic 5-bit regrouping and checksum live in the external `bech32`
crate; they are modelled as a parameter record `Bech` whose required
behaviour (`BechOK`) is the round trip the crate guarantees: decoding an
encoded string returns the same human-readable prefix, the same bytes
and the `Bech32` variant.  The TLV cursor logic of
`src/bech32/nevent.rs` and `src/bech32/nprofile.rs` is translated
directly. -/

/-- The two bech32 checksum variants. -/
inductive BechVariant where
  | bech32
  | bech32m
  deriving DecidableEq

/-- The external `bech32` crate: `bech32::encode` (with `to_base32`) and
`bech32::decode` (with `from_base32`). -/
structure Bech where
  encode : String → List Nat → String
  decode : String → Except Unit (String × List Nat × BechVariant)

/-- The round trip guaranteed by the `bech32` crate. -/
structure BechOK (B : Bech) : Prop where
  round : ∀ hrp bytes, (∀ b ∈ bytes, b < 256) →
    B.decode (B.encode hrp bytes) = .ok (hrp, bytes, .bech32)

/-- The variants of `bech32::Error` in `src/bech32/mod.rs`.
`wrongHrp` models `InvalidPrefix`. -/
inductive BechError where
  | invalidType (found : Nat)
  | unexpectedData (found : List Nat)
  | wrongHrp (expected found : String)
  | invalidLength (expected found : Nat)
  | utf8Error
  | variant
  | bech32
  | missingLength
  | keyError (e : KeyError)
  deriving DecidableEq

/-- `bech32::decode` wrapper in `src/bech32/mod.rs`: library decode,
then the hrp and variant checks. -/
def bechDecode (B : Bech) (hrp : String) (s : String) :
    Except BechError (List Nat) :=
  match B.decode s with
  | .error _ => .error .bech32
  | .ok (h, data, v) =>
      if h ≠ hrp then .error (.wrongHrp hrp h)
      else if v ≠ BechVariant.bech32 then .error .variant
      else .ok data

/-- `bech32::encode` wrapper in `src/bech32/mod.rs`; infallible for the
fixed lowercase prefixes used by the codecs. -/
def bechEncode (B : Bech) (hrp : String) (data : List Nat) : String :=
  B.encode hrp data

/-- `advance_by` in `src/bech32/mod.rs`: `iter.nth(n - 1)`.  For
`n = 0` the `usize` subtraction underflows, which is an arithmetic
overflow panic in a debug build; the panic is `none`.  For `n ≥ 1` the
iterator advances past `min n remaining` elements. -/
def advanceBy (l : List Nat) (n : Nat) : Option (List Nat) :=
  if n = 0 then none else some (l.drop n)

/-- The nevent record `Event` in `src/bech32/nevent.rs`: an id string
and relay strings. -/
structure NEvent where
  id : String
  relays : List String
  deriving DecidableEq

/-- `Event::to_bech32` payload: special entry with length byte `0x20`
followed by the UTF-8 bytes of the id (however many there are), then
one relay entry per relay in order, with `len as u8` length bytes. -/
def NEvent.payload (e : NEvent) : List Nat :=
  0 :: 32 :: utf8Encode e.id ++
    e.relays.flatMap (fun r => 1 :: (utf8Encode r).length % 256 :: utf8Encode r)

/-- `Event::to_bech32` in `src/bech32/nevent.rs`. -/
def NEvent.toBech32 (B : Bech) (e : NEvent) : String :=
  bechEncode B "nevent" e.payload

/-- The TLV reading loop of `Event::from_bech32`: read a type byte, a
length byte, clone-and-take that many value bytes, advance the cursor,
and dispatch on the type.  In the special arm the cursor is advanced
before the UTF-8 check; in the relay arm after it.  `none` is the
underflow panic of `advance_by` on a zero length. -/
def neventLoop : Nat → List Nat → NEvent → Option (Except BechError (NEvent × List Nat))
  | 0, _, _ => none
  | _ + 1, [], ev => some (.ok (ev, []))
  | fuel + 1, t :: rest, ev =>
      if t = 0 then
        match rest with
        | [] => some (.error .missingLength)
        | size :: rest2 =>
            match advanceBy rest2 size with
            | none => none
            | some rest3 =>
                match utf8DecodeL (rest2.take size) with
                | none => some (.error .utf8Error)
                | some cs => neventLoop fuel rest3 { ev with id := String.mk cs }
      else if t = 1 then
        match rest with
        | [] => some (.error .missingLength)
        | size :: rest2 =>
            match utf8DecodeL (rest2.take size) with
            | none => some (.error .utf8Error)
            | some cs =>
                match advanceBy rest2 size with
                | none => none
                | some rest3 =>
                    neventLoop fuel rest3 { ev with relays := ev.relays ++ [String.mk cs] }
      else some (.error (.invalidType t))

/-- The TLV parse of a decoded nevent payload, including the (dead)
trailing-data check after the loop. -/
def parseNevent (bytes : List Nat) : Option (Except BechError NEvent) :=
  match neventLoop (bytes.length + 1) bytes ⟨"", []⟩ with
  | none => none
  | some (.error e) => some (.error e)
  | some (.ok (ev, rem)) =>
      if rem ≠ [] then some (.error (.unexpectedData rem)) else some (.ok ev)

/-- `Event::from_bech32` in `src/bech32/nevent.rs`. -/
def NEvent.fromBech32 (B : Bech) (s : String) : Option (Except BechError NEvent) :=
  match bechDecode B "nevent" s with
  | .error e => some (.error e)
  | .ok bytes => parseNevent bytes

/-- The nprofile record `Profile` in `src/bech32/nprofile.rs`: an
optional public key and relay strings. -/
structure Profile where
  public_key : Option (List Nat)
  relays : List String
  deriving DecidableEq

/-- `Profile::to_bech32` payload: special entry of 32 bytes (the key, or
32 zero bytes when the key is absent), then the relay entries. -/
def Profile.payload (p : Profile) : List Nat :=
  0 :: 32 :: (match p.public_key with
    | none => List.replicate 32 0
    | some k => k) ++
    p.relays.flatMap (fun r => 1 :: (utf8Encode r).length % 256 :: utf8Encode r)

/-- `Profile::to_bech32` in `src/bech32/nprofile.rs`. -/
def Profile.toBech32 (B : Bech) (p : Profile) : String :=
  bechEncode B "nprofile" p.payload

/-- The TLV reading loop of `Profile::from_bech32`.  The special arm
first checks the length byte against 32 (`InvalidLength`), then parses
the key (`PublicKey::try_from`, a `Key` error on failure), then
advances the cursor. -/
def profileLoop : Nat → List Nat → Profile → Option (Except BechError (Profile × List Nat))
  | 0, _, _ => none
  | _ + 1, [], p => some (.ok (p, []))
  | fuel + 1, t :: rest, p =>
      if t = 0 then
        match rest with
        | [] => some (.error .missingLength)
        | size :: rest2 =>
            if size ≠ 32 then some (.error (.invalidLength 32 size))
            else
              if pkValid (rest2.take size) then
                match advanceBy rest2 size with
                | none => none
                | some rest3 =>
                    profileLoop fuel rest3 { p with public_key := some (rest2.take size) }
              else some (.error (.keyError .key))
      else if t = 1 then
        match rest with
        | [] => some (.error .missingLength)
        | size :: rest2 =>
            match utf8DecodeL (rest2.take size) with
            | none => some (.error .utf8Error)
            | some cs =>
                match advanceBy rest2 size with
                | none => none
                | some rest3 =>
                    profileLoop fuel rest3 { p with relays := p.relays ++ [String.mk cs] }
      else some (.error (.invalidType t))

/-- The TLV parse of a decoded nprofile payload, including the (dead)
trailing-data check after the loop. -/
def parseNprofile (bytes : List Nat) : Option (Except BechError Profile) :=
  match profileLoop (bytes.length + 1) bytes ⟨none, []⟩ with
  | none => none
  | some (.error e) => some (.error e)
  | some (.ok (p, rem)) =>
      if rem ≠ [] then some (.error (.unexpectedData rem)) else some (.ok p)

/-- `Profile::from_bech32` in `src/bech32/nprofile.rs`. -/
def Profile.fromBech32 (B : Bech) (s : String) : Option (Except BechError Profile) :=
  match bechDecode B "nprofile" s with
  | .error e => some (.error e)
  | .ok bytes => parseNprofile bytes

theorem string_mk_data (s : String) : String.mk s.data = s := by
  cases s
  rfl

/-- One relay TLV entry as written by the encoders. -/
def relayBytes (r : String) : List Nat :=
  1 :: (utf8Encode r).length % 256 :: utf8Encode r

/-- The relay entries of an encoded payload, in order. -/
def relaysBytes (rs : List String) : List Nat :=
  rs.flatMap relayBytes

theorem NEvent.neventPayload_eq (e : NEvent) :
    NEvent.payload e = 0 :: 32 :: utf8Encode e.id ++ relaysBytes e.relays := rfl

theorem Profile.profilePayload_eq (p : Profile) :
    Profile.payload p = 0 :: 32 :: (match p.public_key with
      | none => List.replicate 32 0
      | some k => k) ++ relaysBytes p.relays := rfl

theorem relayBytes_bytes (r : String) : ∀ b ∈ relayBytes r, b < 256 := by
  intro b hb
  simp only [relayBytes, List.mem_cons] at hb
  rcases hb with hb | hb | hb
  · omega
  · subst hb
    exact Nat.mod_lt _ (by omega)
  · exact utf8EncodeL_bytes _ b hb

theorem relaysBytes_bytes (rs : List String) : ∀ b ∈ relaysBytes rs, b < 256 := by
  intro b hb
  simp only [relaysBytes, List.mem_flatMap] at hb
  obtain ⟨r, _, hr⟩ := hb
  exact relayBytes_bytes r b hr

theorem NEvent.neventPayload_bytes (e : NEvent) : ∀ b ∈ NEvent.payload e, b < 256 := by
  intro b hb
  rw [NEvent.neventPayload_eq] at hb
  simp only [List.cons_append, List.mem_cons, List.mem_append] at hb
  rcases hb with hb | hb | hb | hb
  · omega
  · omega
  · exact utf8EncodeL_bytes _ b hb
  · exact relaysBytes_bytes _ b hb

theorem Profile.profilePayload_bytes (p : Profile)
    (hk : ∀ k, p.public_key = some k → ∀ b ∈ k, b < 256) :
    ∀ b ∈ Profile.payload p, b < 256 := by
  intro b hb
  rw [Profile.profilePayload_eq] at hb
  simp only [List.cons_append, List.mem_cons, List.mem_append] at hb
  rcases hb with hb | hb | hb | hb
  · omega
  · omega
  · cases hpk : p.public_key with
    | none =>
        rw [hpk] at hb
        simp at hb
        omega
    | some k =>
        rw [hpk] at hb
        exact hk k hpk b hb
  · exact relaysBytes_bytes _ b hb

/-- Relay entries with byte lengths in `1..=255` parse back to the same
relay strings, consuming the whole buffer. -/
theorem neventLoop_relays (rs : List String) : ∀ fuel ev,
    (relaysBytes rs).length < fuel →
    (∀ r ∈ rs, 1 ≤ (utf8Encode r).length ∧ (utf8Encode r).length ≤ 255) →
    neventLoop fuel (relaysBytes rs) ev =
      some (.ok ({ ev with relays := ev.relays ++ rs }, [])) := by
  induction rs with
  | nil =>
      intro fuel ev hf _
      match fuel, hf with
      | f + 1, _ =>
        show neventLoop (f + 1) [] ev = _
        rw [neventLoop]
        simp
  | cons r rs ih =>
      intro fuel ev hf hok
      obtain ⟨hr1, hr255⟩ := hok r (by simp)
      have hmod : (utf8Encode r).length % 256 = (utf8Encode r).length :=
        Nat.mod_eq_of_lt (by omega)
      have hsplit : relaysBytes (r :: rs) =
          1 :: (utf8Encode r).length % 256 :: (utf8Encode r ++ relaysBytes rs) := by
        simp [relaysBytes, relayBytes, List.flatMap_cons]
      rw [hsplit] at hf ⊢
      simp only [List.length_cons, List.length_append] at hf
      match fuel, hf with
      | f + 1, _ =>
        rw [neventLoop, if_neg (by omega), if_pos rfl]
        rw [hmod]
        rw [List.take_left' rfl]
        rw [utf8Decode_utf8Encode r]
        simp only []
        rw [advanceBy, if_neg (by omega)]
        simp only []
        rw [List.drop_left' rfl]
        rw [ih f _ (by omega) (fun x hx => hok x (List.mem_cons_of_mem _ hx))]
        simp [string_mk_data, List.append_assoc]

/-- Parsing an encoded nevent payload whose id is exactly 32 UTF-8 bytes
and whose relays have byte lengths in `1..=255` returns the record. -/
theorem parseNevent_payload (e : NEvent)
    (hid : (utf8Encode e.id).length = 32)
    (hrel : ∀ r ∈ e.relays, 1 ≤ (utf8Encode r).length ∧ (utf8Encode r).length ≤ 255) :
    parseNevent (NEvent.payload e) = some (.ok e) := by
  rw [parseNevent]
  have hloop : neventLoop ((NEvent.payload e).length + 1) (NEvent.payload e) ⟨"", []⟩ =
      some (.ok (e, [])) := by
    rw [NEvent.neventPayload_eq]
    simp only [List.cons_append, List.length_cons, List.length_append]
    rw [neventLoop, if_pos rfl]
    rw [advanceBy, if_neg (by omega)]
    simp only []
    rw [List.take_left' hid, List.drop_left' hid]
    rw [utf8Decode_utf8Encode e.id]
    simp only []
    rw [neventLoop_relays e.relays _ _ (by omega) hrel]
    cases e
    simp [string_mk_data]
  rw [hloop]
  simp

/-- C2 (amended): the nevent bech32 round trip holds for records whose
id has exactly 32 UTF-8 bytes and whose relays each occupy between 1 and
255 bytes. -/
theorem nevent_bech32_roundtrip (B : Bech) (hB : BechOK B) (e : NEvent)
    (hid : (utf8Encode e.id).length = 32)
    (hrel : ∀ r ∈ e.relays, 1 ≤ (utf8Encode r).length ∧ (utf8Encode r).length ≤ 255) :
    NEvent.fromBech32 B (NEvent.toBech32 B e) = some (.ok e) := by
  rw [NEvent.fromBech32, NEvent.toBech32, bechEncode]
  have hdec : bechDecode B "nevent" (B.encode "nevent" (NEvent.payload e)) =
      .ok (NEvent.payload e) := by
    rw [bechDecode, hB.round "nevent" _ (NEvent.neventPayload_bytes e)]
    simp
  rw [hdec]
  exact parseNevent_payload e hid hrel

/-- The TLV loop of the nevent decoder exhausts its input on success and
never reports `UnexpectedData` as an error. -/
theorem neventLoop_inv (fuel : Nat) : ∀ bytes ev res,
    neventLoop fuel bytes ev = some res →
    (∀ found, res ≠ .error (.unexpectedData found)) ∧
    (∀ ev' rem, res = .ok (ev', rem) → rem = []) := by
  induction fuel with
  | zero =>
      intro bytes ev res h
      simp [neventLoop] at h
  | succ f ih =>
      intro bytes ev res h
      cases bytes with
      | nil =>
          rw [neventLoop] at h
          simp at h
          subst h
          constructor
          · intro found
            simp
          · intro ev' rem hr
            simp at hr
            exact hr.2
      | cons t rest =>
          rw [neventLoop.eq_def] at h
          simp only [] at h
          by_cases h0 : t = 0
          · rw [if_pos h0] at h
            cases rest with
            | nil =>
                simp at h
                subst h
                exact ⟨by simp, by simp⟩
            | cons size rest2 =>
                simp only [] at h
                cases hadv : advanceBy rest2 size with
                | none =>
                    rw [hadv] at h
                    simp at h
                | some rest3 =>
                    rw [hadv] at h
                    simp only [] at h
                    cases hdec : utf8DecodeL (rest2.take size) with
                    | none =>
                        rw [hdec] at h
                        simp at h
                        subst h
                        exact ⟨by simp, by simp⟩
                    | some cs =>
                        rw [hdec] at h
                        simp only [] at h
                        exact ih _ _ _ h
          · rw [if_neg h0] at h
            by_cases h1 : t = 1
            · rw [if_pos h1] at h
              cases rest with
              | nil =>
                  simp at h
                  subst h
                  exact ⟨by simp, by simp⟩
              | cons size rest2 =>
                  simp only [] at h
                  cases hdec : utf8DecodeL (rest2.take size) with
                  | none =>
                      rw [hdec] at h
                      simp at h
                      subst h
                      exact ⟨by simp, by simp⟩
                  | some cs =>
                      rw [hdec] at h
                      simp only [] at h
                      cases hadv : advanceBy rest2 size with
                      | none =>
                          rw [hadv] at h
                          simp at h
                      | some rest3 =>
                          rw [hadv] at h
                          simp only [] at h
                          exact ih _ _ _ h
            · rw [if_neg h1] at h
              simp at h
              subst h
              exact ⟨by simp, by simp⟩

/-- The TLV loop of the nprofile decoder exhausts its input on success
and never reports `UnexpectedData` as an error. -/
theorem profileLoop_inv (fuel : Nat) : ∀ bytes p res,
    profileLoop fuel bytes p = some res →
    (∀ found, res ≠ .error (.unexpectedData found)) ∧
    (∀ p' rem, res = .ok (p', rem) → rem = []) := by
  induction fuel with
  | zero =>
      intro bytes p res h
      simp [profileLoop] at h
  | succ f ih =>
      intro bytes p res h
      cases bytes with
      | nil =>
          rw [profileLoop] at h
          simp at h
          subst h
          constructor
          · intro found
            simp
          · intro p' rem hr
            simp at hr
            exact hr.2
      | cons t rest =>
          rw [profileLoop.eq_def] at h
          simp only [] at h
          by_cases h0 : t = 0
          · rw [if_pos h0] at h
            cases rest with
            | nil =>
                simp at h
                subst h
                exact ⟨by simp, by simp⟩
            | cons size rest2 =>
                simp only [] at h
                by_cases hsz : size ≠ 32
                · rw [if_pos hsz] at h
                  simp at h
                  subst h
                  exact ⟨by simp, by simp⟩
                · rw [if_neg hsz] at h
                  by_cases hpk : pkValid (rest2.take size) = true
                  · rw [if_pos hpk] at h
                    cases hadv : advanceBy rest2 size with
                    | none =>
                        rw [hadv] at h
                        simp at h
                    | some rest3 =>
                        rw [hadv] at h
                        simp only [] at h
                        exact ih _ _ _ h
                  · rw [if_neg hpk] at h
                    simp at h
                    subst h
                    exact ⟨by simp, by simp⟩
          · rw [if_neg h0] at h
            by_cases h1 : t = 1
            · rw [if_pos h1] at h
              cases rest with
              | nil =>
                  simp at h
                  subst h
                  exact ⟨by simp, by simp⟩
              | cons size rest2 =>
                  simp only [] at h
                  cases hdec : utf8DecodeL (rest2.take size) with
                  | none =>
                      rw [hdec] at h
                      simp at h
                      subst h
                      exact ⟨by simp, by simp⟩
                  | some cs =>
                      rw [hdec] at h
                      simp only [] at h
                      cases hadv : advanceBy rest2 size with
                      | none =>
                          rw [hadv] at h
                          simp at h
                      | some rest3 =>
                          rw [hadv] at h
                          simp only [] at h
                          exact ih _ _ _ h
            · rw [if_neg h1] at h
              simp at h
              subst h
              exact ⟨by simp, by simp⟩

theorem bechDecode_no_unexpected (B : Bech) (hrp s : String) (found : List Nat) :
    bechDecode B hrp s ≠ .error (.unexpectedData found) := by
  rw [bechDecode]
  cases B.decode s with
  | error e => simp
  | ok triple =>
      obtain ⟨h, data, v⟩ := triple
      simp only []
      split
      · simp
      · split
        · simp
        · simp

theorem parseNevent_no_unexpected (bytes : List Nat) (found : List Nat) :
    parseNevent bytes ≠ some (.error (.unexpectedData found)) := by
  rw [parseNevent]
  cases hl : neventLoop (bytes.length + 1) bytes ⟨"", []⟩ with
  | none => simp
  | some res =>
      have hinv := neventLoop_inv _ _ _ _ hl
      cases res with
      | error e =>
          simp only []
          intro hcontra
          simp at hcontra
          exact hinv.1 found (by rw [hcontra])
      | ok pr =>
          obtain ⟨ev, rem⟩ := pr
          have : rem = [] := hinv.2 ev rem rfl
          subst this
          simp

theorem parseNprofile_no_unexpected (bytes : List Nat) (found : List Nat) :
    parseNprofile bytes ≠ some (.error (.unexpectedData found)) := by
  rw [parseNprofile]
  cases hl : profileLoop (bytes.length + 1) bytes ⟨none, []⟩ with
  | none => simp
  | some res =>
      have hinv := profileLoop_inv _ _ _ _ hl
      cases res with
      | error e =>
          simp only []
          intro hcontra
          simp at hcontra
          exact hinv.1 found (by rw [hcontra])
      | ok pr =>
          obtain ⟨p, rem⟩ := pr
          have : rem = [] := hinv.2 p rem rfl
          subst this
          simp

/-- C4 (amended): the `UnexpectedData` check after the TLV loop is dead
code: the `while let` loop only ends once the iterator is exhausted, so
neither decoder ever fails with `UnexpectedData`, for any input string
and any bech32 backend. -/
theorem no_unexpected_data_error :
    (∀ (B : Bech) (s : String) (found : List Nat),
      NEvent.fromBech32 B s ≠ some (.error (.unexpectedData found))) ∧
    (∀ (B : Bech) (s : String) (found : List Nat),
      Profile.fromBech32 B s ≠ some (.error (.unexpectedData found))) := by
  constructor
  · intro B s found
    rw [NEvent.fromBech32]
    cases hdec : bechDecode B "nevent" s with
    | error e =>
        simp only []
        intro hcontra
        simp at hcontra
        exact bechDecode_no_unexpected B "nevent" s found (by rw [hdec, hcontra])
    | ok bytes =>
        simp only []
        exact parseNevent_no_unexpected bytes found
  · intro B s found
    rw [Profile.fromBech32]
    cases hdec : bechDecode B "nprofile" s with
    | error e =>
        simp only []
        intro hcontra
        simp at hcontra
        exact bechDecode_no_unexpected B "nprofile" s found (by rw [hdec, hcontra])
    | ok bytes =>
        simp only []
        exact parseNprofile_no_unexpected bytes found

/-! ## Structured TLV payloads

A payload that follows the documented TLV layout is a sequence of
entries, each a type byte, a length byte, and exactly that many value
bytes.  These are used to state which payloads the decoders handle. -/

/-- One TLV entry of the NIP-19 layout. -/
inductive Entry where
  | special (v : List Nat)
  | relay (v : List Nat)
  deriving DecidableEq

/-- The bytes of one entry: type, length, value. -/
def Entry.bytes : Entry → List Nat
  | .special v => 0 :: v.length :: v
  | .relay v => 1 :: v.length :: v

/-- The bytes of an entry sequence. -/
def entriesBytes (es : List Entry) : List Nat :=
  es.flatMap Entry.bytes

/-- An entry the nevent decoder consumes without error or panic:
non-empty value of at most 255 bytes that is valid UTF-8. -/
def Entry.okNevent : Entry → Prop
  | .special v => 1 ≤ v.length ∧ v.length ≤ 255 ∧ (utf8DecodeL v).isSome = true
  | .relay v => 1 ≤ v.length ∧ v.length ≤ 255 ∧ (utf8DecodeL v).isSome = true

/-- An entry the nprofile decoder consumes without error or panic:
a special entry must be exactly 32 bytes forming a valid x-only key. -/
def Entry.okNprofile : Entry → Prop
  | .special v => v.length = 32 ∧ pkValid v = true
  | .relay v => 1 ≤ v.length ∧ v.length ≤ 255 ∧ (utf8DecodeL v).isSome = true

/-- Well-formed entries followed by an unknown type byte make the
nevent loop fail with `InvalidType` on that byte. -/
theorem neventLoop_entries_invalidType (es : List Entry) : ∀ fuel ev (t : Nat)
    (rest : List Nat), (entriesBytes es ++ t :: rest).length < fuel →
    (∀ en ∈ es, en.okNevent) → t ≠ 0 → t ≠ 1 →
    neventLoop fuel (entriesBytes es ++ t :: rest) ev =
      some (.error (.invalidType t)) := by
  induction es with
  | nil =>
      intro fuel ev t rest hf _ ht0 ht1
      match fuel, hf with
      | f + 1, _ =>
        show neventLoop (f + 1) ([] ++ t :: rest) ev = _
        rw [List.nil_append, neventLoop.eq_def]
        simp only []
        rw [if_neg ht0, if_neg ht1]
  | cons en es ih =>
      intro fuel ev t rest hf hok ht0 ht1
      have hoken := hok en (by simp)
      cases en with
      | special v =>
          obtain ⟨hv1, _, hvu⟩ := hoken
          obtain ⟨cs, hcs⟩ := Option.isSome_iff_exists.mp hvu
          have hsplit : entriesBytes (.special v :: es) ++ t :: rest =
              0 :: v.length :: (v ++ (entriesBytes es ++ t :: rest)) := by
            simp [entriesBytes, Entry.bytes, List.flatMap_cons]
          rw [hsplit] at hf ⊢
          simp only [List.length_cons, List.length_append] at hf
          match fuel, hf with
          | f + 1, _ =>
            rw [neventLoop, if_pos rfl]
            rw [advanceBy, if_neg (by omega)]
            simp only []
            rw [List.take_left' rfl, List.drop_left' rfl, hcs]
            simp only []
            exact ih f _ t rest (by simp [List.length_append]; omega) 
              (fun x hx => hok x (List.mem_cons_of_mem _ hx)) ht0 ht1
      | relay v =>
          obtain ⟨hv1, _, hvu⟩ := hoken
          obtain ⟨cs, hcs⟩ := Option.isSome_iff_exists.mp hvu
          have hsplit : entriesBytes (.relay v :: es) ++ t :: rest =
              1 :: v.length :: (v ++ (entriesBytes es ++ t :: rest)) := by
            simp [entriesBytes, Entry.bytes, List.flatMap_cons]
          rw [hsplit] at hf ⊢
          simp only [List.length_cons, List.length_append] at hf
          match fuel, hf with
          | f + 1, _ =>
            rw [neventLoop, if_neg (by omega), if_pos rfl]
            rw [List.take_left' rfl, hcs]
            simp only []
            rw [advanceBy, if_neg (by omega)]
            simp only []
            rw [List.drop_left' rfl]
            exact ih f _ t rest (by simp [List.length_append]; omega)
              (fun x hx => hok x (List.mem_cons_of_mem _ hx)) ht0 ht1

/-- Well-formed entries followed by an unknown type byte make the
nprofile loop fail with `InvalidType` on that byte. -/
theorem profileLoop_entries_invalidType (es : List Entry) : ∀ fuel p (t : Nat)
    (rest : List Nat), (entriesBytes es ++ t :: rest).length < fuel →
    (∀ en ∈ es, en.okNprofile) → t ≠ 0 → t ≠ 1 →
    profileLoop fuel (entriesBytes es ++ t :: rest) p =
      some (.error (.invalidType t)) := by
  induction es with
  | nil =>
      intro fuel p t rest hf _ ht0 ht1
      match fuel, hf with
      | f + 1, _ =>
        show profileLoop (f + 1) ([] ++ t :: rest) p = _
        rw [List.nil_append, profileLoop.eq_def]
        simp only []
        rw [if_neg ht0, if_neg ht1]
  | cons en es ih =>
      intro fuel p t rest hf hok ht0 ht1
      have hoken := hok en (by simp)
      cases en with
      | special v =>
          obtain ⟨hv32, hvpk⟩ := hoken
          have hsplit : entriesBytes (.special v :: es) ++ t :: rest =
              0 :: v.length :: (v ++ (entriesBytes es ++ t :: rest)) := by
            simp [entriesBytes, Entry.bytes, List.flatMap_cons]
          rw [hsplit] at hf ⊢
          simp only [List.length_cons, List.length_append] at hf
          match fuel, hf with
          | f + 1, _ =>
            rw [profileLoop, if_pos rfl]
            rw [if_neg (by omega)]
            rw [List.take_left' rfl, if_pos hvpk]
            rw [advanceBy, if_neg (by omega)]
            simp only []
            rw [List.drop_left' rfl]
            exact ih f _ t rest (by simp [List.length_append]; omega)
              (fun x hx => hok x (List.mem_cons_of_mem _ hx)) ht0 ht1
      | relay v =>
          obtain ⟨hv1, _, hvu⟩ := hoken
          obtain ⟨cs, hcs⟩ := Option.isSome_iff_exists.mp hvu
          have hsplit : entriesBytes (.relay v :: es) ++ t :: rest =
              1 :: v.length :: (v ++ (entriesBytes es ++ t :: rest)) := by
            simp [entriesBytes, Entry.bytes, List.flatMap_cons]
          rw [hsplit] at hf ⊢
          simp only [List.length_cons, List.length_append] at hf
          match fuel, hf with
          | f + 1, _ =>
            rw [profileLoop, if_neg (by omega), if_pos rfl]
            rw [List.take_left' rfl, hcs]
            simp only []
            rw [advanceBy, if_neg (by omega)]
            simp only []
            rw [List.drop_left' rfl]
            exact ih f _ t rest (by simp [List.length_append]; omega)
              (fun x hx => hok x (List.mem_cons_of_mem _ hx)) ht0 ht1

/-- C5 (amended): when a decoded payload consists of well-formed entries
followed by an entry whose type byte is neither `0x00` nor `0x01`, both
decoders fail with `InvalidType` on that byte; unknown types reached by
the cursor are never silently skipped.  (The well-formedness of the
preceding entries is necessary: a zero-length entry derails the cursor
before the unknown type byte is reached.) -/
theorem unknown_type_invalid_type :
    (∀ (B : Bech) (s : String) (es : List Entry) (t : Nat) (rest : List Nat),
      bechDecode B "nevent" s = .ok (entriesBytes es ++ t :: rest) →
      (∀ en ∈ es, en.okNevent) → t ≠ 0 → t ≠ 1 →
      NEvent.fromBech32 B s = some (.error (.invalidType t))) ∧
    (∀ (B : Bech) (s : String) (es : List Entry) (t : Nat) (rest : List Nat),
      bechDecode B "nprofile" s = .ok (entriesBytes es ++ t :: rest) →
      (∀ en ∈ es, en.okNprofile) → t ≠ 0 → t ≠ 1 →
      Profile.fromBech32 B s = some (.error (.invalidType t))) := by
  constructor
  · intro B s es t rest hdec hok ht0 ht1
    rw [NEvent.fromBech32, hdec]
    simp only []
    rw [parseNevent]
    rw [neventLoop_entries_invalidType es _ _ t rest (by omega) hok ht0 ht1]
  · intro B s es t rest hdec hok ht0 ht1
    rw [Profile.fromBech32, hdec]
    simp only []
    rw [parseNprofile]
    rw [profileLoop_entries_invalidType es _ _ t rest (by omega) hok ht0 ht1]

/-! ## Characterization of nprofile decoding on structured payloads -/

/-- The value of the last special entry, if any, starting from a
default. -/
def lastSpecialFrom (d : Option (List Nat)) : List Entry → Option (List Nat)
  | [] => d
  | .special v :: es => lastSpecialFrom (some v) es
  | .relay _ :: es => lastSpecialFrom d es

/-- The decoded relay strings of an entry sequence, in order. -/
def entryRelays : List Entry → List String
  | [] => []
  | .special _ :: es => entryRelays es
  | .relay v :: es =>
      (match utf8DecodeL v with
       | some cs => [String.mk cs]
       | none => []) ++ entryRelays es

/-- The nprofile loop on a payload of well-formed entries: the public
key is the last special entry's value (or the starting value when there
is none) and the relays accumulate in encounter order. -/
theorem profileLoop_entries (es : List Entry) : ∀ fuel p,
    (entriesBytes es).length < fuel → (∀ en ∈ es, en.okNprofile) →
    profileLoop fuel (entriesBytes es) p =
      some (.ok (⟨lastSpecialFrom p.public_key es, p.relays ++ entryRelays es⟩, [])) := by
  induction es with
  | nil =>
      intro fuel p hf _
      match fuel, hf with
      | f + 1, _ =>
        show profileLoop (f + 1) [] p = _
        rw [profileLoop]
        simp [lastSpecialFrom, entryRelays]
  | cons en es ih =>
      intro fuel p hf hok
      have hoken := hok en (by simp)
      cases en with
      | special v =>
          obtain ⟨hv32, hvpk⟩ := hoken
          have hsplit : entriesBytes (.special v :: es) =
              0 :: v.length :: (v ++ entriesBytes es) := by
            simp [entriesBytes, Entry.bytes, List.flatMap_cons]
          rw [hsplit] at hf ⊢
          simp only [List.length_cons, List.length_append] at hf
          match fuel, hf with
          | f + 1, _ =>
            rw [profileLoop, if_pos rfl]
            rw [if_neg (by omega)]
            rw [List.take_left' rfl, if_pos hvpk]
            rw [advanceBy, if_neg (by omega)]
            simp only []
            rw [List.drop_left' rfl]
            rw [ih f _ (by omega) (fun x hx => hok x (List.mem_cons_of_mem _ hx))]
            simp [lastSpecialFrom, entryRelays]
      | relay v =>
          obtain ⟨hv1, _, hvu⟩ := hoken
          obtain ⟨cs, hcs⟩ := Option.isSome_iff_exists.mp hvu
          have hsplit : entriesBytes (.relay v :: es) =
              1 :: v.length :: (v ++ entriesBytes es) := by
            simp [entriesBytes, Entry.bytes, List.flatMap_cons]
          rw [hsplit] at hf ⊢
          simp only [List.length_cons, List.length_append] at hf
          match fuel, hf with
          | f + 1, _ =>
            rw [profileLoop, if_neg (by omega), if_pos rfl]
            rw [List.take_left' rfl, hcs]
            simp only []
            rw [advanceBy, if_neg (by omega)]
            simp only []
            rw [List.drop_left' rfl]
            rw [ih f _ (by omega) (fun x hx => hok x (List.mem_cons_of_mem _ hx))]
            simp only [lastSpecialFrom, entryRelays, hcs]
            rw [List.append_assoc]

/-- C10: `advance_by` advances past exactly `n` value bytes when
`n ≥ 1` (it calls `iter.nth(n - 1)`), but for a zero-length entry the
`n - 1` computation underflows on `usize` (a panic in a debug build),
so decoding a payload with a zero-length relay entry followed by
further bytes does not return the empty relay string followed by the
parse of those bytes: both TLV decoders abort on such payloads. -/
theorem advance_by_underflow :
    (∀ (l : List Nat) (n : Nat), 1 ≤ n → advanceBy l n = some (l.drop n)) ∧
    (∀ rest : List Nat, parseNevent (1 :: 0 :: rest) = none) ∧
    (∀ rest : List Nat, parseNprofile (1 :: 0 :: rest) = none) := by
  refine ⟨?_, ?_, ?_⟩
  · intro l n hn
    rw [advanceBy, if_neg (by omega)]
  · intro rest
    rw [parseNevent]
    have hloop : neventLoop ((1 :: 0 :: rest).length + 1) (1 :: 0 :: rest) ⟨"", []⟩ = none := by
      simp only [List.length_cons]
      rw [neventLoop, if_neg (by omega), if_pos rfl]
      have : utf8DecodeL (rest.take 0) = some [] := by
        rw [List.take_zero]
        rfl
      rw [this]
      simp only []
      rw [advanceBy, if_pos rfl]
    rw [hloop]
  · intro rest
    rw [parseNprofile]
    have hloop : profileLoop ((1 :: 0 :: rest).length + 1) (1 :: 0 :: rest) ⟨none, []⟩ = none := by
      simp only [List.length_cons]
      rw [profileLoop, if_neg (by omega), if_pos rfl]
      have : utf8DecodeL (rest.take 0) = some [] := by
        rw [List.take_zero]
        rfl
      rw [this]
      simp only []
      rw [advanceBy, if_pos rfl]
    rw [hloop]

theorem lastSpecialFrom_of_no_special (es : List Entry) : ∀ d,
    (∀ v, Entry.special v ∉ es) → lastSpecialFrom d es = d := by
  induction es with
  | nil =>
      intro d _
      rfl
  | cons en es ih =>
      intro d hno
      cases en with
      | special v => exact absurd (by simp) (hno v)
      | relay v =>
          rw [lastSpecialFrom]
          exact ih d (fun x hx => hno x (List.mem_cons_of_mem _ hx))

theorem lastSpecialFrom_isSome (es : List Entry) : ∀ d,
    (∃ v, Entry.special v ∈ es) → ∃ k, lastSpecialFrom d es = some k := by
  induction es with
  | nil =>
      intro d h
      obtain ⟨v, hv⟩ := h
      simp at hv
  | cons en es ih =>
      intro d h
      cases en with
      | special v =>
          rw [lastSpecialFrom]
          by_cases hes : ∃ w, Entry.special w ∈ es
          · exact ih (some v) hes
          · push_neg at hes
            rw [lastSpecialFrom_of_no_special es (some v) hes]
            exact ⟨v, rfl⟩
      | relay v =>
          rw [lastSpecialFrom]
          obtain ⟨w, hw⟩ := h
          simp at hw
          exact ih d ⟨w, hw⟩

/-- C6 (amended): encoding a key-less profile writes the special entry
as 32 zero bytes rather than failing; decoding a structured payload
whose special entries carry valid keys yields `Some` of a key exactly
when a special entry is present, and the decoded public key stays
`None` only when the payload has no special entry.  (The zero-byte
placeholder itself is not a valid x-only key, so decoding it fails with
a `Key` error — see the counterexample.) -/
theorem nprofile_placeholder_and_special :
    (∀ (B : Bech) (relays : List String),
      Profile.toBech32 B ⟨none, relays⟩ =
        bechEncode B "nprofile" (0 :: 32 :: List.replicate 32 0 ++ relaysBytes relays)) ∧
    (∀ (B : Bech) (s : String) (es : List Entry),
      bechDecode B "nprofile" s = .ok (entriesBytes es) →
      (∀ en ∈ es, en.okNprofile) → (∃ v, Entry.special v ∈ es) →
      ∃ p k, Profile.fromBech32 B s = some (.ok p) ∧ p.public_key = some k) ∧
    (∀ (B : Bech) (s : String) (es : List Entry),
      bechDecode B "nprofile" s = .ok (entriesBytes es) →
      (∀ en ∈ es, en.okNprofile) → (∀ v, Entry.special v ∉ es) →
      ∃ p, Profile.fromBech32 B s = some (.ok p) ∧ p.public_key = none) := by
  refine ⟨?_, ?_, ?_⟩
  · intro B relays
    rfl
  · intro B s es hdec hok hsp
    rw [Profile.fromBech32, hdec]
    simp only []
    rw [parseNprofile]
    rw [profileLoop_entries es _ _ (by omega) hok]
    simp only []
    obtain ⟨k, hk⟩ := lastSpecialFrom_isSome es none hsp
    exact ⟨⟨lastSpecialFrom none es, [] ++ entryRelays es⟩, k, by simp, hk⟩
  · intro B s es hdec hok hsp
    rw [Profile.fromBech32, hdec]
    simp only []
    rw [parseNprofile]
    rw [profileLoop_entries es _ _ (by omega) hok]
    simp only []
    refine ⟨⟨lastSpecialFrom none es, [] ++ entryRelays es⟩, by simp, ?_⟩
    exact lastSpecialFrom_of_no_special es none hsp

/-! ## Mnemonic key derivation (`src/mnemonic.rs`, `src/key.rs`)

The BIP-39 phrase validation, the seed derivation and the BIP-32 path
derivation at `m/44'/1237'/0'/0/0` live in the external `bip32` crate;
they are modelled as a parameter record of pure functions, which is
faithful because the crate exposes them as deterministic functions of
the phrase with no ambient state or randomness (randomness enters only
through `Mnemonic::random` and `Pair::generate`, which take an RNG). -/

structure Bip39 where
  /-- `bip32::Mnemonic::new`: wordlist membership and checksum. -/
  validate : String → Bool
  /-- `Mnemonic::to_seed("")` on a validated phrase. -/
  toSeed : String → List Nat
  /-- `XPrv::derive_from_path` at the fixed path, then the 32 private
  key bytes. -/
  derive : List Nat → List Nat

/-- `Mnemonic::to_bytes` (`src/mnemonic.rs`): seed, then path
derivation. -/
def mnemonicToBytes (M : Bip39) (phrase : String) : List Nat :=
  M.derive (M.toSeed phrase)

/-- `Pair::from_mnemonic` (`src/key.rs`): validate the phrase, derive
the 32 bytes, build the pair from the resulting secret key
(`SecretKey::try_from` validity modelled by `skValid`). -/
def Pair.fromMnemonic (C : Crypto) (M : Bip39) (s : String) : Except KeyError Pair :=
  if M.validate s then
    if C.skValid (mnemonicToBytes M s) then .ok (Pair.fromSecretKey C (mnemonicToBytes M s))
    else .error .key
  else .error .mnemonic

/-- C7: `from_mnemonic` is a deterministic function of the phrase: any
two successful calls with the same phrase return the same pair, whose
secret key bytes are exactly the derivation of the phrase. -/
theorem from_mnemonic_deterministic (C : Crypto) (M : Bip39) (s : String)
    (p1 p2 : Pair) (h1 : Pair.fromMnemonic C M s = .ok p1)
    (h2 : Pair.fromMnemonic C M s = .ok p2) :
    p1 = p2 ∧ p1.secret_key = some (mnemonicToBytes M s) := by
  have h12 : p1 = p2 := by
    rw [h1] at h2
    exact Except.ok.inj h2
  refine ⟨h12, ?_⟩
  rw [Pair.fromMnemonic] at h1
  split at h1
  · split at h1
    · simp at h1
      rw [← h1]
      rfl
    · simp at h1
  · simp at h1

/-! ## AES-256-CBC with PKCS7 padding (`src/encryption.rs`)

`encrypt256` calls the external `aes` and `cbc` crates; AES-256 (FIPS
197) and CBC chaining are implemented here concretely so that the
spec's test vector is machine-checked.  Bytes are `Nat` values below
256; `^^^` is bitwise xor. -/

/-- Multiplication by `x` in GF(2^8) modulo `x^8 + x^4 + x^3 + x + 1`. -/
def xtime (b : Nat) : Nat :=
  if b * 2 < 256 then b * 2 else (b * 2) ^^^ 283

/-- Russian-peasant multiplication in GF(2^8). -/
def gfMulAux : Nat → Nat → Nat → Nat → Nat
  | 0, _, _, acc => acc
  | k + 1, a, b, acc =>
      gfMulAux k (xtime a) (b / 2) (if b % 2 = 1 then acc ^^^ a else acc)

def gfMul (a b : Nat) : Nat := gfMulAux 8 a b 0

/-- Square-and-multiply exponentiation in GF(2^8). -/
def gfPowAux : Nat → Nat → Nat → Nat
  | 0, _, _ => 1
  | k + 1, a, e =>
      if e = 0 then 1
      else if e % 2 = 1 then gfMul (gfPowAux k (gfMul a a) (e / 2)) a
      else gfPowAux k (gfMul a a) (e / 2)

/-- Multiplicative inverse in GF(2^8) (`b^254`; 0 maps to 0). -/
def gfInv (b : Nat) : Nat := gfPowAux 10 b 254

/-- Rotate an 8-bit value left by `k`. -/
def rotl8 (x k : Nat) : Nat := ((x * 2 ^ k) % 256) ^^^ (x / 2 ^ (8 - k))

/-- The AES S-box as the affine transform of the field inverse. -/
def sbox (b : Nat) : Nat :=
  gfInv b ^^^ rotl8 (gfInv b) 1 ^^^ rotl8 (gfInv b) 2 ^^^ rotl8 (gfInv b) 3 ^^^
    rotl8 (gfInv b) 4 ^^^ 99

/-- The S-box tabulated, for cheap kernel evaluation; proven equal to
the pointwise definition in `sboxTable_eq`. -/
def sboxTable : List Nat :=
  [99, 124, 119, 123, 242, 107, 111, 197, 48, 1, 103, 43, 254, 215, 171, 118,
   202, 130, 201, 125, 250, 89, 71, 240, 173, 212, 162, 175, 156, 164, 114,
   192, 183, 253, 147, 38, 54, 63, 247, 204, 52, 165, 229, 241, 113, 216, 49,
   21, 4, 199, 35, 195, 24, 150, 5, 154, 7, 18, 128, 226, 235, 39, 178, 117,
   9, 131, 44, 26, 27, 110, 90, 160, 82, 59, 214, 179, 41, 227, 47, 132, 83,
   209, 0, 237, 32, 252, 177, 91, 106, 203, 190, 57, 74, 76, 88, 207, 208,
   239, 170, 251, 67, 77, 51, 133, 69, 249, 2, 127, 80, 60, 159, 168, 81,
   163, 64, 143, 146, 157, 56, 245, 188, 182, 218, 33, 16, 255, 243, 210,
   205, 12, 19, 236, 95, 151, 68, 23, 196, 167, 126, 61, 100, 93, 25, 115,
   96, 129, 79, 220, 34, 42, 144, 136, 70, 238, 184, 20, 222, 94, 11, 219,
   224, 50, 58, 10, 73, 6, 36, 92, 194, 211, 172, 98, 145, 149, 228, 121,
   231, 200, 55, 109, 141, 213, 78, 169, 108, 86, 244, 234, 101, 122, 174, 8,
   186, 120, 37, 46, 28, 166, 180, 198, 232, 221, 116, 31, 75, 189, 139, 138,
   112, 62, 181, 102, 72, 3, 246, 14, 97, 53, 87, 185, 134, 193, 29, 158,
   225, 248, 152, 17, 105, 217, 142, 148, 155, 30, 135, 233, 206, 85, 40,
   223, 140, 161, 137, 13, 191, 230, 66, 104, 65, 153, 45, 15, 176, 84, 187,
   22]

def sboxT (b : Nat) : Nat := sboxTable.getD b 0

set_option maxRecDepth 100000 in
theorem sboxTable_eq : sboxTable = (List.range 256).map sbox := by decide

/-- Pointwise xor of two byte lists. -/
def zipXor (a b : List Nat) : List Nat := List.zipWith (fun x y => x ^^^ y) a b

def chunksOfAux : Nat → Nat → List Nat → List (List Nat)
  | 0, _, _ => []
  | _ + 1, _, [] => []
  | fuel + 1, n, l => l.take n :: chunksOfAux fuel n (l.drop n)

/-- The list split into chunks of `n` bytes. -/
def chunksOf (n : Nat) (l : List Nat) : List (List Nat) := chunksOfAux l.length n l

def rotWord (w : List Nat) : List Nat := w.drop 1 ++ w.take 1

def subWord (w : List Nat) : List Nat := w.map sboxT

/-- The round constant `x^(i-1)` in GF(2^8). -/
def rcon (i : Nat) : Nat := gfPowAux 10 2 (i - 1)

/-- The AES-256 key schedule: 8 words from the key, then words 8..59 by
the FIPS 197 recurrence. -/
def keyWords (key : List Nat) : List (List Nat) :=
  (List.range 52).foldl (fun ws j =>
    ws ++ [zipXor (ws.getD j [])
      (if (j + 8) % 8 = 0 then
        zipXor (subWord (rotWord (ws.getD (j + 7) []))) [rcon ((j + 8) / 8), 0, 0, 0]
       else if (j + 8) % 8 = 4 then subWord (ws.getD (j + 7) [])
       else ws.getD (j + 7) [])]) (chunksOf 4 key)

/-- Round key `r` as 16 bytes. -/
def roundKey (ws : List (List Nat)) (r : Nat) : List Nat :=
  ((ws.drop (4 * r)).take 4).flatten

def subBytes (s : List Nat) : List Nat := s.map sboxT

/-- ShiftRows on the column-major 16-byte state. -/
def shiftRows (s : List Nat) : List Nat :=
  (List.range 16).map (fun i => s.getD (4 * ((i / 4 + i % 4) % 4) + i % 4) 0)

/-- MixColumns on one 4-byte column. -/
def mixCol : List Nat → List Nat
  | [a, b, c, d] =>
      [xtime a ^^^ (xtime b ^^^ b) ^^^ c ^^^ d,
       a ^^^ xtime b ^^^ (xtime c ^^^ c) ^^^ d,
       a ^^^ b ^^^ xtime c ^^^ (xtime d ^^^ d),
       (xtime a ^^^ a) ^^^ b ^^^ c ^^^ xtime d]
  | l => l

def mixColumns (s : List Nat) : List Nat := (chunksOf 4 s).flatMap mixCol

/-- One AES-256 block encryption: initial round key, 13 full rounds,
final round without MixColumns. -/
def encryptBlock (ws : List (List Nat)) (block : List Nat) : List Nat :=
  zipXor (shiftRows (subBytes
    ((List.range 13).foldl (fun st r =>
        zipXor (mixColumns (shiftRows (subBytes st))) (roundKey ws (r + 1)))
      (zipXor block (roundKey ws 0)))))
    (roundKey ws 14)

/-- PKCS7 padding to a multiple of 16 bytes; every message is validly
padded, so encryption is total. -/
def pkcs7pad (msg : List Nat) : List Nat :=
  msg ++ List.replicate (16 - msg.length % 16) (16 - msg.length % 16)

/-- `encrypt256` (`src/encryption.rs`): AES-256 in CBC mode over the
PKCS7-padded message, seeded by the IV. -/
def encrypt256 (key iv msg : List Nat) : List Nat :=
  ((chunksOf 16 (pkcs7pad msg)).foldl (fun acc blk =>
      (encryptBlock (keyWords key) (zipXor acc.1 blk),
        acc.2 ++ encryptBlock (keyWords key) (zipXor acc.1 blk)))
    ((iv, []) : List Nat × List Nat)).2

set_option maxRecDepth 1000000 in
set_option maxHeartbeats 8000000 in
/-- C8: `encrypt256` of `"hello world! this is my plaintext."` under the
key of 32 `0x42` bytes and the IV of 16 `0x24` bytes is exactly the
48-byte ciphertext of the spec's test vector, and the encryption is a
total function (it cannot fail). -/
theorem encrypt256_vector :
    encrypt256 (List.replicate 32 66) (List.replicate 16 36)
      [104, 101, 108, 108, 111, 32, 119, 111, 114, 108, 100, 33, 32, 116, 104,
       105, 115, 32, 105, 115, 32, 109, 121, 32, 112, 108, 97, 105, 110, 116,
       101, 120, 116, 46] =
    [23, 24, 177, 223, 193, 241, 71, 253, 248, 47, 110, 208, 132, 69, 196, 81,
     44, 134, 27, 1, 60, 128, 140, 146, 136, 81, 195, 199, 113, 181, 223, 53,
     6, 32, 188, 236, 97, 60, 142, 51, 105, 99, 133, 153, 112, 232, 118, 191] := by
  decide

/-! ## Concrete instances

A small concrete bech32 backend satisfying `BechOK`, and a concrete
`Crypto`/`Bip39` instance satisfying `CryptoOK`, used to evaluate the
codecs and the event construction on concrete inputs. -/

/-- One byte as a character outside the ASCII range (never `'1'`). -/
def toyEncChar (b : Nat) : Char := Char.ofNat (600 + b)

/-- Byte characters first, then a `'1'` separator, then the prefix. -/
def toyBechEncode (hrp : String) (bytes : List Nat) : String :=
  String.mk (bytes.map toyEncChar ++ '1' :: hrp.data)

def toyBechDecode (s : String) : Except Unit (String × List Nat × BechVariant) :=
  if (s.data.takeWhile (fun c => c != '1')).all
      (fun c => decide (600 ≤ c.toNat ∧ c.toNat < 856)) then
    match s.data.dropWhile (fun c => c != '1') with
    | _ :: hrpCs =>
        .ok (String.mk hrpCs,
          (s.data.takeWhile (fun c => c != '1')).map (fun c => c.toNat - 600), .bech32)
    | [] => .error ()
  else .error ()

def toyBech : Bech := ⟨toyBechEncode, toyBechDecode⟩

theorem toyEncChar_toNat {b : Nat} (hb : b < 256) : (toyEncChar b).toNat = 600 + b :=
  char_ofNat_toNat_of_valid (Or.inl (by omega))

theorem toyEncChar_ne_one {b : Nat} (hb : b < 256) : (toyEncChar b != '1') = true := by
  simp only [bne_iff_ne]
  intro h
  have := congrArg Char.toNat h
  rw [toyEncChar_toNat hb] at this
  simp at this
  omega

theorem toy_split (bytes : List Nat) (hb : ∀ b ∈ bytes, b < 256) (tail : List Char) :
    (bytes.map toyEncChar ++ '1' :: tail).takeWhile (fun c => c != '1') =
      bytes.map toyEncChar ∧
    (bytes.map toyEncChar ++ '1' :: tail).dropWhile (fun c => c != '1') =
      '1' :: tail := by
  induction bytes with
  | nil => simp [List.takeWhile, List.dropWhile]
  | cons b bs ih =>
      have hb1 : b < 256 := hb b (by simp)
      obtain ⟨iht, ihd⟩ := ih (fun x hx => hb x (by simp [hx]))
      simp only [List.map_cons, List.cons_append]
      simp only [List.takeWhile_cons, List.dropWhile_cons, toyEncChar_ne_one hb1,
        if_true, iht, ihd]
      exact ⟨trivial, trivial⟩

theorem toyBech_ok : BechOK toyBech := by
  constructor
  intro hrp bytes hb
  show toyBechDecode (toyBechEncode hrp bytes) = _
  rw [toyBechEncode, toyBechDecode]
  have hdata : (String.mk (bytes.map toyEncChar ++ '1' :: hrp.data)).data =
      bytes.map toyEncChar ++ '1' :: hrp.data := rfl
  rw [hdata]
  obtain ⟨ht, hd⟩ := toy_split bytes hb hrp.data
  rw [ht, hd]
  have hall : (bytes.map toyEncChar).all
      (fun c => decide (600 ≤ c.toNat ∧ c.toNat < 856)) = true := by
    rw [List.all_eq_true]
    intro c hc
    rw [List.mem_map] at hc
    obtain ⟨b, hbm, hbc⟩ := hc
    subst hbc
    rw [decide_eq_true_eq, toyEncChar_toNat (hb b hbm)]
    have := hb b hbm
    omega
  rw [if_pos hall]
  simp only []
  rw [string_mk_data]
  have hmap : (bytes.map toyEncChar).map (fun c => c.toNat - 600) = bytes := by
    rw [List.map_map]
    have : ∀ b ∈ bytes, ((fun c : Char => c.toNat - 600) ∘ toyEncChar) b = b := by
      intro b hbm
      simp only [Function.comp_apply]
      rw [toyEncChar_toNat (hb b hbm)]
      omega
    rw [List.map_congr_left this]
    simp
  rw [hmap]

/-- The x-only public key of the repository's tests
(`3bf0c63fcb93463407af97a5e5ee64fa883d107ef9e558472c4eb9aaaefa459d`). -/
def toyPubKey : List Nat :=
  [59, 240, 198, 63, 203, 147, 70, 52, 7, 175, 151, 165, 229, 238, 100, 250,
   136, 61, 16, 126, 249, 229, 88, 71, 44, 78, 185, 170, 174, 250, 69, 157]

/-- A concrete `Crypto` instance: a 32-byte length-based stand-in for
SHA-256, a constant valid public key and a constant 64-byte signature
accepted by its verifier. -/
def toyCrypto : Crypto where
  sha256 := fun s => (s.length % 256) :: List.replicate 31 0
  xOnlyPub := fun _ => toyPubKey
  schnorrSign := fun _ _ => List.replicate 64 7
  schnorrVerify := fun sig _ _ => sig == List.replicate 64 7
  skValid := fun _ => true

set_option maxRecDepth 1000000 in
theorem toyCrypto_ok : CryptoOK toyCrypto := by
  constructor
  · intro s
    simp [toyCrypto]
  · intro s b hb
    simp only [toyCrypto, List.mem_cons] at hb
    rcases hb with hb | hb
    · subst hb
      exact Nat.mod_lt _ (by omega)
    · rw [List.eq_of_mem_replicate hb]
      omega
  · intro sk m
    simp [toyCrypto]
  · intro sk m b hb
    simp only [toyCrypto] at hb
    rw [List.eq_of_mem_replicate hb]
    omega
  · intro sk
    show pkValid toyPubKey = true
    decide
  · intro sk m _
    simp [toyCrypto]

/-- A concrete `Bip39` instance. -/
def toyBip39 : Bip39 where
  validate := fun _ => true
  toSeed := fun s => [s.data.length % 256]
  derive := fun bs => bs ++ List.replicate 31 0

deriving instance DecidableEq for Except

instance : ∀ en : Entry, Decidable en.okNevent
  | .special v =>
      inferInstanceAs (Decidable (1 ≤ v.length ∧ v.length ≤ 255 ∧ (utf8DecodeL v).isSome = true))
  | .relay v =>
      inferInstanceAs (Decidable (1 ≤ v.length ∧ v.length ≤ 255 ∧ (utf8DecodeL v).isSome = true))

instance : ∀ en : Entry, Decidable en.okNprofile
  | .special v => inferInstanceAs (Decidable (v.length = 32 ∧ pkValid v = true))
  | .relay v =>
      inferInstanceAs (Decidable (1 ≤ v.length ∧ v.length ≤ 255 ∧ (utf8DecodeL v).isSome = true))

/-! ## Counterexamples and concrete instantiations -/

/-- C2 (counterexample): the nevent round trip fails as stated: for the
record with the 2-byte id `"ab"` and the relay list `["r"]`, the encoder
writes a length byte of 32 but only 2 id bytes, so the decoder absorbs
the relay entry into the id and returns a different record. -/
theorem nevent_roundtrip_counterexample :
    NEvent.fromBech32 toyBech (NEvent.toBech32 toyBech ⟨"ab", ["r"]⟩) =
      some (.ok ⟨String.mk ['a', 'b', Char.ofNat 1, Char.ofNat 1, 'r'], []⟩) ∧
    NEvent.fromBech32 toyBech (NEvent.toBech32 toyBech ⟨"ab", ["r"]⟩) ≠
      some (.ok ⟨"ab", ["r"]⟩) := by
  constructor
  · decide
  · decide

/-- C2 (witness). -/
theorem nevent_bech32_roundtrip_witness :
    BechOK toyBech ∧
    (utf8Encode "0123456789abcdef0123456789abcdef").length = 32 ∧
    (∀ r ∈ ["r"], 1 ≤ (utf8Encode r).length ∧ (utf8Encode r).length ≤ 255) ∧
    NEvent.fromBech32 toyBech
      (NEvent.toBech32 toyBech ⟨"0123456789abcdef0123456789abcdef", ["r"]⟩) =
      some (.ok ⟨"0123456789abcdef0123456789abcdef", ["r"]⟩) :=
  ⟨toyBech_ok, by decide, by decide,
    nevent_bech32_roundtrip toyBech toyBech_ok ⟨"0123456789abcdef0123456789abcdef", ["r"]⟩
      (by decide) (by decide)⟩

/-- C4 (counterexample): a payload with one valid relay entry followed
by the truncated trailing bytes `[1, 5, 97]` does not fail with
`UnexpectedData`; the trailing bytes are absorbed as a truncated relay
and decoding succeeds. -/
theorem trailing_data_counterexample :
    NEvent.fromBech32 toyBech (bechEncode toyBech "nevent" [1, 1, 98, 1, 5, 97]) =
      some (.ok ⟨"", ["b", "a"]⟩) ∧
    ∀ found, NEvent.fromBech32 toyBech (bechEncode toyBech "nevent" [1, 1, 98, 1, 5, 97]) ≠
      some (.error (.unexpectedData found)) := by
  have h : NEvent.fromBech32 toyBech (bechEncode toyBech "nevent" [1, 1, 98, 1, 5, 97]) =
      some (.ok ⟨"", ["b", "a"]⟩) := by decide
  exact ⟨h, fun found => by rw [h]; simp⟩

/-- C5 (counterexample): a payload holding a zero-length relay entry and
then a complete entry with the unknown type byte 7 does not fail with
`InvalidType`: the `advance_by` underflow aborts the decoder first. -/
theorem invalid_type_counterexample :
    NEvent.fromBech32 toyBech (bechEncode toyBech "nevent" [1, 0, 7, 0]) = none ∧
    ∀ t, NEvent.fromBech32 toyBech (bechEncode toyBech "nevent" [1, 0, 7, 0]) ≠
      some (.error (.invalidType t)) := by
  have h : NEvent.fromBech32 toyBech (bechEncode toyBech "nevent" [1, 0, 7, 0]) = none := by
    decide
  exact ⟨h, fun t => by rw [h]; simp⟩

/-- C5 (witness). -/
theorem unknown_type_invalid_type_witness :
    bechDecode toyBech "nevent" (bechEncode toyBech "nevent" [1, 1, 97, 7, 9]) =
      .ok (entriesBytes [Entry.relay [97]] ++ 7 :: [9]) ∧
    (∀ en ∈ [Entry.relay [97]], en.okNevent) ∧
    NEvent.fromBech32 toyBech (bechEncode toyBech "nevent" [1, 1, 97, 7, 9]) =
      some (.error (.invalidType 7)) :=
  ⟨by decide, by decide,
    unknown_type_invalid_type.1 toyBech (bechEncode toyBech "nevent" [1, 1, 97, 7, 9])
      [Entry.relay [97]] 7 [9] (by decide) (by decide) (by decide) (by decide)⟩

set_option maxRecDepth 1000000 in
/-- C6 (counterexample): decoding the nprofile produced by encoding a
key-less profile does not return `Some` of a key: the 32 zero bytes are
not a valid x-only public key, so decoding fails with a `Key` error. -/
theorem nprofile_placeholder_counterexample :
    Profile.fromBech32 toyBech (Profile.toBech32 toyBech ⟨none, []⟩) =
      some (.error (.keyError .key)) := by
  decide

set_option maxRecDepth 1000000 in
/-- C6 (witness). -/
theorem nprofile_placeholder_and_special_witness :
    bechDecode toyBech "nprofile" (bechEncode toyBech "nprofile" (0 :: 32 :: toyPubKey)) =
      .ok (entriesBytes [Entry.special toyPubKey]) ∧
    (∀ en ∈ [Entry.special toyPubKey], en.okNprofile) ∧
    (∃ v, Entry.special v ∈ [Entry.special toyPubKey]) ∧
    (∃ p k, Profile.fromBech32 toyBech
        (bechEncode toyBech "nprofile" (0 :: 32 :: toyPubKey)) = some (.ok p) ∧
      p.public_key = some k) :=
  ⟨by decide, by decide, ⟨toyPubKey, by decide⟩,
    nprofile_placeholder_and_special.2.1 toyBech
      (bechEncode toyBech "nprofile" (0 :: 32 :: toyPubKey))
      [Entry.special toyPubKey] (by decide) (by decide) ⟨toyPubKey, by decide⟩⟩

/-- C1 (witness). -/
theorem event_new_satisfies_invariant_witness :
    CryptoOK toyCrypto ∧
    (Pair.mk (some [1]) toyPubKey).secret_key = some [1] ∧
    (Pair.mk (some [1]) toyPubKey).public_key = toyCrypto.xOnlyPub [1] ∧
    (∃ e, Event.new toyCrypto 1 [] "hi" (Pair.mk (some [1]) toyPubKey) 0 = some e ∧
      e.id = hexEncode (toyCrypto.sha256 (Event.canon e)) ∧
      e.sig = hexEncode (toyCrypto.schnorrSign [1] (Event.hashBytes toyCrypto e)) ∧
      toyCrypto.schnorrVerify (toyCrypto.schnorrSign [1] (Event.hashBytes toyCrypto e))
        (Event.hashBytes toyCrypto e) (toyCrypto.xOnlyPub [1]) = true ∧
      Event.verify toyCrypto e = Except.ok ()) :=
  ⟨toyCrypto_ok, rfl, rfl,
    event_new_satisfies_invariant toyCrypto toyCrypto_ok (Pair.mk (some [1]) toyPubKey)
      [1] rfl rfl 1 0 [] "hi"⟩

/-- C9 (witness). -/
theorem event_new_panics_iff_no_secret_witness :
    CryptoOK toyCrypto ∧
    (Event.new toyCrypto 1 [] "x" (Pair.mk none toyPubKey) 5 = none ↔
      (Pair.mk none toyPubKey).secret_key = none) :=
  ⟨toyCrypto_ok,
    event_new_panics_iff_no_secret toyCrypto toyCrypto_ok (Pair.mk none toyPubKey) 1 5 [] "x"⟩

/-- The signed event used to witness the hash-binding theorem. -/
def wEvent : Event :=
  { id := hexEncode (toyCrypto.sha256 (canonFields "p" 0 1 [] "a")), pubkey := "p",
    created_at := 0, kind := 1, tags := [], content := "a", sig := "s" }

/-- The same event with only its content changed. -/
def wEventMut : Event := { wEvent with content := "bb" }

/-- C3 (witness). -/
theorem verify_mutation_hash_mismatch_witness :
    CryptoOK toyCrypto ∧
    wEvent.id = hexEncode (toyCrypto.sha256 (Event.canon wEvent)) ∧
    wEventMut.id = wEvent.id ∧
    wEventMut.sig = wEvent.sig ∧
    (wEventMut.pubkey ≠ wEvent.pubkey ∨ wEventMut.created_at ≠ wEvent.created_at ∨
      wEventMut.kind ≠ wEvent.kind ∨ wEventMut.tags ≠ wEvent.tags ∨
      wEventMut.content ≠ wEvent.content) ∧
    (toyCrypto.sha256 (Event.canon wEventMut) = toyCrypto.sha256 (Event.canon wEvent) →
      Event.canon wEventMut = Event.canon wEvent) ∧
    Event.verify toyCrypto wEventMut = .error .hashMismatch :=
  ⟨toyCrypto_ok, rfl, rfl, rfl,
    Or.inr (Or.inr (Or.inr (Or.inr (by decide)))),
    fun h => absurd h (by decide),
    verify_mutation_hash_mismatch toyCrypto toyCrypto_ok wEvent wEventMut rfl rfl rfl
      (Or.inr (Or.inr (Or.inr (Or.inr (by decide)))))
      (fun h => absurd h (by decide))⟩

/-- C7 (witness). -/
theorem from_mnemonic_deterministic_witness :
    Pair.fromMnemonic toyCrypto toyBip39 "word" =
      .ok (Pair.fromSecretKey toyCrypto (mnemonicToBytes toyBip39 "word")) ∧
    Pair.fromSecretKey toyCrypto (mnemonicToBytes toyBip39 "word") =
      Pair.fromSecretKey toyCrypto (mnemonicToBytes toyBip39 "word") ∧
    (Pair.fromSecretKey toyCrypto (mnemonicToBytes toyBip39 "word")).secret_key =
      some (mnemonicToBytes toyBip39 "word") :=
  ⟨by decide,
    (from_mnemonic_deterministic toyCrypto toyBip39 "word"
      (Pair.fromSecretKey toyCrypto (mnemonicToBytes toyBip39 "word"))
      (Pair.fromSecretKey toyCrypto (mnemonicToBytes toyBip39 "word"))
      (by decide) (by decide)).1,
    (from_mnemonic_deterministic toyCrypto toyBip39 "word"
      (Pair.fromSecretKey toyCrypto (mnemonicToBytes toyBip39 "word"))
      (Pair.fromSecretKey toyCrypto (mnemonicToBytes toyBip39 "word"))
      (by decide) (by decide)).2⟩

/-- C10 (witness). -/
theorem advance_by_underflow_witness :
    1 ≤ 2 ∧
    advanceBy [5, 6] 2 = some ([5, 6].drop 2) ∧
    parseNevent [1, 0, 9] = none ∧
    parseNprofile [1, 0, 9] = none :=
  ⟨by decide, advance_by_underflow.1 [5, 6] 2 (by decide),
    advance_by_underflow.2.1 [9], advance_by_underflow.2.2 [9]⟩

end Nostrust
